import Mathlib

/-!
Verification of the postal-code centroid pipeline of decasaalcole-data.

The definitions below are a shallow embedding of
`src/postcodes/dcac_postcodes/compute_centroids.py` and
`src/postcodes/dcac_postcodes/extract_postcodes.py`, together with the
clustering parameters of `src/postcodes/src/config.py`.  Python floats are
modelled as exact rationals; comparisons of Euclidean distances are modelled
by the equivalent comparisons of squared distances.  A function that can
raise an uncaught Python exception is embedded as `Except PyErr`, where
`.ok none` models the logged early `return` paths (caught errors) and
`.error` models an exception escaping the function.
-/

set_option maxRecDepth 100000

namespace DCAC

/-- Python runtime errors that escape the embedded functions uncaught. -/
inductive PyErr where
  | indexError : PyErr
  | keyError (key : String) : PyErr
  | typeError : PyErr
deriving DecidableEq, Repr

/-- Decidable equality for Except, needed to evaluate embedded functions
inside decide. -/
instance {ε α : Type} [DecidableEq ε] [DecidableEq α] : DecidableEq (Except ε α) := fun a b =>
  match a, b with
  | Except.ok x, Except.ok y =>
    if h : x = y then isTrue (by rw [h]) else isFalse (fun c => by injection c; exact h ‹_›)
  | Except.error x, Except.error y =>
    if h : x = y then isTrue (by rw [h]) else isFalse (fun c => by injection c; exact h ‹_›)
  | Except.ok _, Except.error _ => isFalse (fun c => Except.noConfusion c)
  | Except.error _, Except.ok _ => isFalse (fun c => Except.noConfusion c)

/-- A raw CSV row as produced by csv.DictReader: association list from
column name to string value, in column order. -/
abbrev RawRow := List (String × String)

/-- Leading decimal digits of a character list, and the rest. -/
def takeDigits : List Char → List Char × List Char
  | [] => ([], [])
  | c :: cs =>
    if c.isDigit then
      let p := takeDigits cs
      (c :: p.1, p.2)
    else ([], c :: cs)

/-- Numeric value of a list of decimal digits (most significant first). -/
def digitsVal (cs : List Char) : ℕ :=
  cs.foldl (fun a c => a * 10 + (c.toNat - 48)) 0

/-- Optional leading sign; returns (isNegative, rest). -/
def parseSign : List Char → Bool × List Char
  | '-' :: cs => (true, cs)
  | '+' :: cs => (false, cs)
  | cs => (false, cs)

/-- Unsigned decimal mantissa: digits with an optional fractional part.
Returns its exact rational value and the unconsumed characters. -/
def parseMantissa (cs : List Char) : Option (ℚ × List Char) :=
  let ip := takeDigits cs
  match ip.2 with
  | '.' :: r2 =>
    let fp := takeDigits r2
    if ip.1 = [] ∧ fp.1 = [] then none
    else some ((digitsVal ip.1 : ℚ) + (digitsVal fp.1 : ℚ) / (10 : ℚ) ^ fp.1.length, fp.2)
  | _ => if ip.1 = [] then none else some ((digitsVal ip.1 : ℚ), ip.2)

/-- Optional exponent part (e or E, signed digits). -/
def parseExp : List Char → Option (ℤ × List Char)
  | 'e' :: cs =>
    let sg := parseSign cs
    let ds := takeDigits sg.2
    if ds.1 = [] then none
    else some (if sg.1 then -(digitsVal ds.1 : ℤ) else (digitsVal ds.1 : ℤ), ds.2)
  | 'E' :: cs =>
    let sg := parseSign cs
    let ds := takeDigits sg.2
    if ds.1 = [] then none
    else some (if sg.1 then -(digitsVal ds.1 : ℤ) else (digitsVal ds.1 : ℤ), ds.2)
  | cs => some (0, cs)

/-- Modelled from the spec: Python's float() builtin (an external primitive),
restricted to the finite plain decimal literals the pipeline's partition files
contain — [sign] digits [. digits] [(e|E) [sign] digits] with surrounding
spaces.  Anything else yields none (a ValueError in the source). -/
def pyFloat (s : String) : Option ℚ :=
  let cs := (((s.toList.dropWhile (· = ' ')).reverse.dropWhile (· = ' ')).reverse)
  let sg := parseSign cs
  match parseMantissa sg.2 with
  | none => none
  | some m =>
    match parseExp m.2 with
    | none => none
    | some e =>
      if e.2 = [] then
        some ((if sg.1 then -m.1 else m.1) * (10 : ℚ) ^ e.1)
      else none

/-- A projected point: exact rational stand-in for the float pair. -/
abbrev Pt := ℚ × ℚ

/-- Coordinate extraction for one row: models float(row["x"]), float(row["y"]).
Both KeyError and ValueError are caught by compute_centroid and collapse into
the same logged early return, so Option suffices here. -/
def rowXY (r : RawRow) : Option Pt :=
  match r.lookup "x" with
  | none => none
  | some sx =>
    match pyFloat sx with
    | none => none
    | some x =>
      match r.lookup "y" with
      | none => none
      | some sy =>
        match pyFloat sy with
        | none => none
        | some y => some (x, y)

/-- The coordinate matrix np.array([[float(row["x"]), float(row["y"])] for row in rows]):
fails as a whole if any row fails. -/
def buildCoords : List RawRow → Option (List Pt)
  | [] => some []
  | r :: rs =>
    match rowXY r with
    | none => none
    | some p =>
      match buildCoords rs with
      | none => none
      | some ps => some (p :: ps)

/-- CLUSTERING_PARAMETERS["eps"] from src/postcodes/src/config.py. -/
def epsParam : ℚ := 250

/-- CLUSTERING_PARAMETERS["min_samples"] from src/postcodes/src/config.py. -/
def minSamplesParam : ℕ := 20

/-- Squared Euclidean distance between two points. -/
def sqdist (p q : Pt) : ℚ := (p.1 - q.1) ^ 2 + (p.2 - q.2) ^ 2

/-- Label list access; absent indices read as the noise label. -/
def labGet (lab : List ℤ) (i : ℕ) : ℤ := lab.getD i (-1)

/-- Point list access with a default. -/
def ptGet (pts : List Pt) (i : ℕ) : Pt := pts.getD i (0, 0)

/-- Modelled from the spec: scikit-learn's DBSCAN neighborhood of point i —
the indices of all points within distance eps of it (inclusive; contains i). -/
def nbrs (pts : List Pt) (i : ℕ) : List ℕ :=
  (List.range pts.length).filter (fun j => sqdist (ptGet pts i) (ptGet pts j) ≤ epsParam ^ 2)

/-- Modelled from the spec: a core point has at least min_samples points in
its eps-neighborhood (itself included). -/
def isCore (pts : List Pt) (i : ℕ) : Bool :=
  minSamplesParam ≤ (nbrs pts i).length

/-- One step of cluster expansion: every still-unlabeled point that is in the
neighborhood of a core point already carrying label cl receives label cl.
nb and co are the precomputed neighborhood and core-flag tables. -/
def expandOnce (nb : List (List ℕ)) (co : List Bool) (lab : List ℤ) (cl : ℤ) : List ℤ :=
  (List.range lab.length).map fun i =>
    if labGet lab i == -1 &&
        ((List.range lab.length).any fun j =>
          labGet lab j == cl && co.getD j false && (nb.getD j []).contains i)
    then cl else labGet lab i

/-- Iterated expansion to a fixpoint (fuel-bounded; one cluster grows by at
least one point per productive step, so fuel = number of points suffices). -/
def expandFix (nb : List (List ℕ)) (co : List Bool) : ℕ → List ℤ → ℤ → List ℤ
  | 0, lab, _ => lab
  | k + 1, lab, cl =>
    let lab2 := expandOnce nb co lab cl
    if lab2 = lab then lab else expandFix nb co k lab2 cl

/-- Seed loop of sklearn's dbscan_inner: scan indices in order; each
still-unlabeled core point seeds the next cluster, which is then expanded. -/
def dbscanSeeds (nb : List (List ℕ)) (co : List Bool) :
    List ℕ → List ℤ → ℤ → List ℤ
  | [], lab, _ => lab
  | i :: rest, lab, next =>
    if labGet lab i == -1 && co.getD i false then
      dbscanSeeds nb co rest (expandFix nb co lab.length (lab.set i next) next) (next + 1)
    else dbscanSeeds nb co rest lab next

/-- Modelled from the spec: the cluster labels computed by scikit-learn's
DBSCAN (an external library): clusters are seeded from core points in index
order and numbered 0, 1, …; each cluster is the closure of its seed under
"still-unlabeled neighbor of a core member"; unreached points keep the noise
label -1.  The DFS traversal order used inside sklearn does not affect the
resulting labels, so the closure form is used. -/
def dbscanLabels (pts : List Pt) : List ℤ :=
  let n := pts.length
  let nb := (List.range n).map (nbrs pts)
  let co := (List.range n).map (fun i => isCore pts i)
  dbscanSeeds nb co (List.range n) (List.replicate n (-1)) 0

/-- Sorted insertion without duplicates, ascending. -/
def insertSorted (x : ℤ) : List ℤ → List ℤ
  | [] => [x]
  | y :: ys => if x < y then x :: y :: ys else if x = y then y :: ys else y :: insertSorted x ys

/-- Models np.unique: the sorted list of distinct values. -/
def uniqueLabels (l : List ℤ) : List ℤ := l.foldr insertSorted []

/-- Indices of the points of cluster l (the boolean mask clusters == label). -/
def memberIdxs (lab : List ℤ) (l : ℤ) : List ℕ :=
  (List.range lab.length).filter (fun i => labGet lab i == l)

/-- Models np.sum(clusters == label): the number of points carrying label l. -/
def countLabel (lab : List ℤ) (l : ℤ) : ℕ := (memberIdxs lab l).length

/-- Models np.mean(np_rows[clusters == label], axis=0): the componentwise
arithmetic mean of the member coordinates. -/
def centroidOf (pts : List Pt) (lab : List ℤ) (l : ℤ) : Pt :=
  (((memberIdxs lab l).map fun i => (ptGet pts i).1).sum / ((memberIdxs lab l).length : ℚ),
   ((memberIdxs lab l).map fun i => (ptGet pts i).2).sum / ((memberIdxs lab l).length : ℚ))

/-- Minimum of a list of rationals (0 for the empty list, never used there). -/
def listMin : List ℚ → ℚ
  | [] => 0
  | [x] => x
  | x :: y :: r => min x (listMin (y :: r))

/-- Models np.argmin: the index of the first minimal element. -/
def argminIdx : List ℚ → ℕ
  | [] => 0
  | [_] => 0
  | x :: y :: r => if listMin (y :: r) < x then argminIdx (y :: r) + 1 else 0

/-- Python's round() to the nearest integer, ties to the even integer,
taken on exact rationals. -/
def pyRoundInt (q : ℚ) : ℤ :=
  if q - (⌊q⌋ : ℚ) < 1 / 2 then ⌊q⌋
  else if 1 / 2 < q - (⌊q⌋ : ℚ) then ⌊q⌋ + 1
  else if ⌊q⌋ % 2 = 0 then ⌊q⌋ else ⌊q⌋ + 1

/-- Python's round(q, 2). -/
def round2 (q : ℚ) : ℚ := (pyRoundInt (q * 100) : ℚ) / 100

/-- Python's round(q, 3). -/
def round3 (q : ℚ) : ℚ := (pyRoundInt (q * 1000) : ℚ) / 1000

/-- The result dictionary of compute_centroid: pct and num_points plus the
remaining string-keyed entries — the representative row's fields in the
cluster case, or the sentinel's four fields with x and y set to None. -/
structure CentroidResult where
  pct : ℚ
  num_points : ℕ
  fields : List (String × Option String)
deriving DecidableEq, Repr

/-- Row access rows[i]. -/
def rowGet (rows : List RawRow) (i : ℕ) : RawRow := rows.getD i []

/-- One entry of the source's results list, built for candidate cluster l:
pct, member count, and the fields of the original row closest to the
cluster's geometric centroid (np.argmin over the distances of all rows). -/
def candResult (rows : List RawRow) (pts : List Pt) (lab : List ℤ) (l : ℤ) : CentroidResult :=
  { pct := round2 ((countLabel lab l : ℚ) / (rows.length : ℚ) * 100),
    num_points := countLabel lab l,
    fields := (rowGet rows (argminIdx (pts.map fun p =>
      sqdist p (centroidOf pts lab l)))).map fun kv => (kv.1, some kv.2) }

/-- Stable insertion for the descending sort by num_points: an element moves
before the first strictly smaller key, so equal keys keep their order. -/
def insertDesc (r : CentroidResult) : List CentroidResult → List CentroidResult
  | [] => [r]
  | s :: ss => if s.num_points ≤ r.num_points then r :: s :: ss else s :: insertDesc r ss

/-- Python's stable list.sort(key=num_points, reverse=True). -/
def sortDesc (l : List CentroidResult) : List CentroidResult := l.foldr insertDesc []

/-- The sentinel dictionary emitted when no candidate cluster exists. -/
def sentinelResult (pc town : String) : CentroidResult :=
  { pct := 0, num_points := 0,
    fields := [("codigo_postal", some pc), ("poblacion", some town), ("x", none), ("y", none)] }

/-- The clustering part of compute_centroid, after the file has been read and
the coordinate matrix built: DBSCAN labels, one results entry per non-noise
label (np.unique order, ascending), stable sort by num_points descending,
first entry or sentinel. -/
def centroidFrom (rows : List RawRow) (pts : List Pt) (pc town : String) : CentroidResult :=
  let lab := dbscanLabels pts
  let cands := (uniqueLabels lab).filter fun l => l != -1
  let results := cands.map (candResult rows pts lab)
  match sortDesc results with
  | r :: _ => r
  | [] => sentinelResult pc town

/-- Model of Python's str.endswith over the underlying character lists. -/
def strEndsWith (s t : String) : Bool := t.data.isSuffixOf s.data

/-- Shallow embedding of compute_centroid from
src/postcodes/dcac_postcodes/compute_centroids.py.  The path check and the
already-read row list are explicit (file I/O errors are caught in the source
and collapse to the same logged early return as a failed path check would).
Note that rows[0]["codigo_postal"] and rows[0]["poblacion"] are evaluated
outside any try block in the source, so an empty file or a file missing
those columns raises an uncaught exception. -/
def compute_centroid (path : String) (rows : List RawRow) : Except PyErr (Option CentroidResult) :=
  if strEndsWith path ".csv" then
    match rows with
    | [] => Except.error PyErr.indexError
    | r0 :: rest =>
      match r0.lookup "codigo_postal" with
      | none => Except.error (PyErr.keyError "codigo_postal")
      | some pc =>
        match r0.lookup "poblacion" with
        | none => Except.error (PyErr.keyError "poblacion")
        | some town =>
          match buildCoords (r0 :: rest) with
          | none => Except.ok none
          | some pts => Except.ok (some (centroidFrom (r0 :: rest) pts pc town))
  else Except.ok none

/-- A feature geometry: a point with geographic coordinates, or any other
geometry type (only its type name matters to the source). -/
inductive Geometry where
  | point (lon lat : ℚ) : Geometry
  | other (typeName : String) : Geometry
deriving DecidableEq, Repr

/-- Whether a geometry is a point. -/
def Geometry.isPoint : Geometry → Bool
  | .point _ _ => true
  | .other _ => false

/-- A vector-dataset feature: geometry plus string properties (a property may
be present with a null value). -/
structure Feature where
  geometry : Geometry
  properties : List (String × Option String)
deriving DecidableEq, Repr

/-- A Python value stored in a feature dictionary. -/
inductive PyVal where
  | vnone : PyVal
  | vstr (s : String) : PyVal
  | vnum (q : ℚ) : PyVal
deriving DecidableEq, Repr

/-- The per-feature dictionary built by create_feature_dict. -/
abbrev FeatureDict := List (String × PyVal)

/-- STREET_NUMBERS_FIELDS from src/postcodes/src/config.py. -/
def STREET_NUMBERS_FIELDS : List String :=
  ["id_porpk", "codigo_postal", "tipo_vial", "poblacion"]

/-- Shallow embedding of transform_coordinates: a non-point geometry is
logged and yields None; otherwise the pyproj transform T (an external native
library, passed in as a parameter) is applied to (lon, lat). -/
def transform_coordinates (T : ℚ → ℚ → ℚ × ℚ) (g : Geometry) : Option (ℚ × ℚ) :=
  match g with
  | .point lon lat => some (T lon lat)
  | .other _ => none

/-- feature["properties"].get(key): missing key and null value both read as None. -/
def propGet (props : List (String × Option String)) (k : String) : PyVal :=
  match props.lookup k with
  | none => PyVal.vnone
  | some none => PyVal.vnone
  | some (some s) => PyVal.vstr s

/-- Shallow embedding of create_feature_dict.  The source unpacks the result
with "x, y = transform_coordinates(...)", so a None result (non-point
geometry) raises TypeError there, before the None-guarding rounding
expressions can run.  The final del of a "geometry" key is the source's
no-op filter. -/
def create_feature_dict (T : ℚ → ℚ → ℚ × ℚ) (f : Feature) : Except PyErr FeatureDict :=
  match transform_coordinates T f.geometry with
  | none => Except.error PyErr.typeError
  | some xy =>
    let props := STREET_NUMBERS_FIELDS.map fun k => (k, propGet f.properties k)
    let fd : FeatureDict :=
      ("x", PyVal.vnum (round3 xy.1)) :: ("y", PyVal.vnum (round3 xy.2)) :: props
    Except.ok (fd.filter fun kv => kv.1 != "geometry")

/-- Append a record to its postcode's partition, preserving Python dict
insertion order of the keys and list append order of the records. -/
def appendPart : List (String × List FeatureDict) → String → FeatureDict →
    List (String × List FeatureDict)
  | [], pc, fd => [(pc, [fd])]
  | (k, l) :: rest, pc, fd =>
    if k = pc then (k, l ++ [fd]) :: rest else (k, l) :: appendPart rest pc fd

/-- The feature loop of extract_postcodes: build each feature's dictionary,
then group it under its codigo_postal when that value is truthy (a non-empty
string); features with a missing, null, or empty postcode are skipped. -/
def extractLoop (T : ℚ → ℚ → ℚ × ℚ) :
    List Feature → List (String × List FeatureDict) →
    Except PyErr (List (String × List FeatureDict))
  | [], m => Except.ok m
  | f :: fs, m =>
    match create_feature_dict T f with
    | Except.error e => Except.error e
    | Except.ok fd =>
      match fd.lookup "codigo_postal" with
      | some (PyVal.vstr pc) =>
        if pc = "" then extractLoop T fs m else extractLoop T fs (appendPart m pc fd)
      | _ => extractLoop T fs m

/-- Shallow embedding of extract_postcodes from
src/postcodes/dcac_postcodes/extract_postcodes.py: the grouping phase.
The CSV writing phase is modelled by partitionFiles below. -/
def extract_postcodes (T : ℚ → ℚ → ℚ × ℚ) (features : List Feature) :
    Except PyErr (List (String × List FeatureDict)) :=
  extractLoop T features []

/-- The writing phase of extract_postcodes: one file per postcode, named
f"{postcode}.csv", holding that postcode's records. -/
def partitionFiles (parts : List (String × List FeatureDict)) :
    List (String × List FeatureDict) :=
  parts.map fun pr => (pr.1 ++ ".csv", pr.2)

/-! Concrete inputs used by the witness and counterexample theorems below. -/

/-- A partition row with the given x value and y = 0. -/
def mkRow (xv : String) : RawRow :=
  [("x", xv), ("y", "0"), ("codigo_postal", "46001"), ("poblacion", "Valencia")]

/-- Twenty points at x = 0..18 and 28: one dense DBSCAN cluster. -/
def rowsA : List RawRow :=
  ((List.range 19).map fun i => mkRow (toString i)) ++ [mkRow "28"]

/-- Twenty points at x = 1000..1018 and 1028: a second dense cluster,
far from the first. -/
def rowsB : List RawRow :=
  ((List.range 19).map fun i => mkRow (toString (1000 + i))) ++ [mkRow "1028"]

/-- A partition file with two tied 20-member clusters. -/
def rowsAB : List RawRow := rowsA ++ rowsB

/-- A border-stealing configuration: a core point at 0 (with 18 fill points
at -10 and the shared border point at 250 in its neighborhood), a second core
point at 500 (with the shared point at 250 and 18 fill points at 740 in its
neighborhood).  The first cluster claims the shared border point, leaving the
second cluster with only 19 members. -/
def stealRows : List RawRow :=
  mkRow "0" :: (List.replicate 18 (mkRow "-10") ++
    (mkRow "250" :: mkRow "500" :: List.replicate 18 (mkRow "740")))

/-- The projected coordinates of stealRows. -/
def stealPts : List Pt :=
  ((0 : ℚ), (0 : ℚ)) :: (List.replicate 18 ((-10 : ℚ), (0 : ℚ)) ++
    (((250 : ℚ), (0 : ℚ)) :: ((500 : ℚ), (0 : ℚ)) ::
      List.replicate 18 ((740 : ℚ), (0 : ℚ))))

/-- The coordinates of rowsA. -/
def ptsA : List Pt :=
  ((List.range 19).map fun i => ((i : ℚ), (0 : ℚ))) ++ [((28 : ℚ), (0 : ℚ))]

end DCAC

namespace DCAC

/-! Lemmas about the stable descending sort. -/

theorem insertDesc_ne_nil (r : CentroidResult) (l : List CentroidResult) :
    insertDesc r l ≠ [] := by
  cases l with
  | nil => simp [insertDesc]
  | cons s ss =>
    simp only [insertDesc]
    split <;> simp

theorem sortDesc_ne_nil {l : List CentroidResult} (h : l ≠ []) : sortDesc l ≠ [] := by
  cases l with
  | nil => exact absurd rfl h
  | cons x xs => exact insertDesc_ne_nil x (sortDesc xs)

/-- The head of the stable descending sort is the first element of the input
attaining the maximal key: it bounds every element, and every element before
it in the input is strictly smaller. -/
theorem sortDesc_head_spec :
    ∀ (L : List CentroidResult) (r : CentroidResult) (t : List CentroidResult),
      sortDesc L = r :: t →
      (∀ s ∈ L, s.num_points ≤ r.num_points) ∧
      ∃ pre post, L = pre ++ r :: post ∧ ∀ s ∈ pre, s.num_points < r.num_points := by
  intro L
  induction L with
  | nil => intro r t h; simp [sortDesc] at h
  | cons x xs ih =>
    intro r t h
    have hx : sortDesc (x :: xs) = insertDesc x (sortDesc xs) := rfl
    rw [hx] at h
    cases hs : sortDesc xs with
    | nil =>
      have hxs : xs = [] := by
        by_contra hne
        exact sortDesc_ne_nil hne hs
      rw [hs] at h
      simp only [insertDesc] at h
      cases h
      subst hxs
      refine ⟨?_, [], [], rfl, by simp⟩
      intro s hsmem
      simp at hsmem
      simp [hsmem]
    | cons r0 t0 =>
      obtain ⟨hmax0, pre0, post0, hxs0, hpre0⟩ := ih r0 t0 hs
      rw [hs] at h
      simp only [insertDesc] at h
      by_cases hcmp : r0.num_points ≤ x.num_points
      · rw [if_pos hcmp] at h
        cases h
        constructor
        · intro s hsmem
          rcases List.mem_cons.1 hsmem with hseq | hsxs
          · exact le_of_eq (by rw [hseq])
          · exact le_trans (hmax0 s hsxs) hcmp
        · exact ⟨[], xs, rfl, by simp⟩
      · rw [if_neg hcmp] at h
        have hxlt : x.num_points < r0.num_points := lt_of_not_le hcmp
        cases h
        constructor
        · intro s hsmem
          rcases List.mem_cons.1 hsmem with hseq | hsxs
          · exact le_of_lt (by rw [hseq]; exact hxlt)
          · exact hmax0 s hsxs
        · exact ⟨x :: pre0, post0, by rw [hxs0]; simp, by
            intro s hsmem
            rcases List.mem_cons.1 hsmem with hseq | hspre
            · rw [hseq]; exact hxlt
            · exact hpre0 s hspre⟩

/-! Lemmas about listMin and argminIdx. -/

theorem listMin_le :
    ∀ (l : List ℚ) (j : ℕ), j < l.length → listMin l ≤ l.getD j 0 := by
  intro l
  induction l with
  | nil => intro j hj; simp at hj
  | cons x xs ih =>
    cases xs with
    | nil =>
      intro j hj
      simp at hj
      subst hj
      simp [listMin]
    | cons y r =>
      intro j hj
      cases j with
      | zero => simp [listMin]
      | succ k =>
        have hk : k < (y :: r).length := by simpa using hj
        have h2 : listMin (x :: y :: r) ≤ listMin (y :: r) :=
          min_le_right x (listMin (y :: r))
        exact le_trans h2 (ih k hk)

theorem argminIdx_lt_length :
    ∀ (l : List ℚ), l ≠ [] → argminIdx l < l.length := by
  intro l
  induction l with
  | nil => intro h; exact absurd rfl h
  | cons x xs ih =>
    cases xs with
    | nil => intro _; simp [argminIdx]
    | cons y r =>
      intro _
      simp only [argminIdx]
      split
      · have := ih (by simp)
        simpa using Nat.succ_lt_succ this
      · simp

theorem getD_argminIdx :
    ∀ (l : List ℚ), l ≠ [] → l.getD (argminIdx l) 0 = listMin l := by
  intro l
  induction l with
  | nil => intro h; exact absurd rfl h
  | cons x xs ih =>
    cases xs with
    | nil => intro _; simp [argminIdx, listMin]
    | cons y r =>
      intro _
      simp only [argminIdx, listMin]
      split
      · rename_i hlt
        have h2 := ih (by simp)
        simp only [List.getD_cons_succ]
        rw [h2]
        exact (min_eq_right (le_of_lt hlt)).symm
      · rename_i hnlt
        have hle : x ≤ listMin (y :: r) := le_of_not_lt hnlt
        simp only [List.getD_cons_zero]
        exact (min_eq_left hle).symm

theorem argminIdx_first :
    ∀ (l : List ℚ) (j : ℕ), j < argminIdx l → listMin l < l.getD j 0 := by
  intro l
  induction l with
  | nil => intro j hj; simp [argminIdx] at hj
  | cons x xs ih =>
    cases xs with
    | nil => intro j hj; simp [argminIdx] at hj
    | cons y r =>
      intro j hj
      simp only [argminIdx] at hj
      by_cases hlt : listMin (y :: r) < x
      · rw [if_pos hlt] at hj
        cases j with
        | zero =>
          simp only [List.getD_cons_zero, listMin]
          exact lt_of_le_of_lt (min_le_right x (listMin (y :: r))) hlt
        | succ k =>
          have hk : k < argminIdx (y :: r) := Nat.lt_of_succ_lt_succ hj
          have h2 := ih k hk
          simp only [List.getD_cons_succ, listMin]
          exact lt_of_le_of_lt (min_le_right x (listMin (y :: r))) h2
      · rw [if_neg hlt] at hj
        exact absurd hj (Nat.not_lt_zero j)

/-! Lemmas about uniqueLabels (the np.unique model). -/

theorem mem_insertSorted {a x : ℤ} :
    ∀ {l : List ℤ}, a ∈ insertSorted x l ↔ a = x ∨ a ∈ l := by
  intro l
  induction l with
  | nil => simp [insertSorted]
  | cons y ys ih =>
    simp only [insertSorted]
    split
    · simp
    · split
      · rename_i hxy
        subst hxy
        constructor
        · intro h; exact Or.inr h
        · intro h
          rcases h with h | h
          · rw [h]; exact List.mem_cons_self x ys
          · exact h
      · constructor
        · intro h
          rcases List.mem_cons.1 h with h | h
          · exact Or.inr (h ▸ List.mem_cons_self y _)
          · rcases ih.1 h with h | h
            · exact Or.inl h
            · exact Or.inr (List.mem_cons_of_mem y h)
        · intro h
          rcases h with h | h
          · exact List.mem_cons_of_mem y (ih.2 (Or.inl h))
          · rcases List.mem_cons.1 h with h | h
            · exact h ▸ List.mem_cons_self y _
            · exact List.mem_cons_of_mem y (ih.2 (Or.inr h))

theorem mem_uniqueLabels {a : ℤ} :
    ∀ {L : List ℤ}, a ∈ uniqueLabels L ↔ a ∈ L := by
  intro L
  induction L with
  | nil => simp [uniqueLabels]
  | cons x xs ih =>
    have h : uniqueLabels (x :: xs) = insertSorted x (uniqueLabels xs) := rfl
    rw [h, mem_insertSorted, ih]
    simp

theorem insertSorted_pairwise {x : ℤ} :
    ∀ {l : List ℤ}, l.Pairwise (· < ·) → (insertSorted x l).Pairwise (· < ·) := by
  intro l
  induction l with
  | nil => intro _; simp [insertSorted]
  | cons y ys ih =>
    intro h
    have hy := List.pairwise_cons.1 h
    simp only [insertSorted]
    split
    · rename_i hxy
      refine List.pairwise_cons.2 ⟨?_, h⟩
      intro b hb
      rcases List.mem_cons.1 hb with hb | hb
      · rw [hb]; exact hxy
      · exact lt_trans hxy (hy.1 b hb)
    · split
      · exact h
      · rename_i hnlt hne
        have hyx : y < x := by
          rcases lt_trichotomy x y with h1 | h1 | h1
          · exact absurd h1 hnlt
          · exact absurd h1 hne
          · exact h1
        refine List.pairwise_cons.2 ⟨?_, ih hy.2⟩
        intro b hb
        rcases mem_insertSorted.1 hb with hb | hb
        · rw [hb]; exact hyx
        · exact hy.1 b hb

theorem uniqueLabels_pairwise : ∀ (L : List ℤ), (uniqueLabels L).Pairwise (· < ·) := by
  intro L
  induction L with
  | nil => simp [uniqueLabels]
  | cons x xs ih => exact insertSorted_pairwise ih

/-! Index-access utilities. -/

theorem getD_range_map {α : Type} (f : ℕ → α) (n i : ℕ) (d : α) (h : i < n) :
    ((List.range n).map f).getD i d = f i := by
  rw [List.getD_eq_getElem?_getD, List.getElem?_map, List.getElem?_range h]
  rfl

theorem labGet_of_ge {lab : List ℤ} {i : ℕ} (h : lab.length ≤ i) : labGet lab i = -1 :=
  List.getD_eq_default lab (-1) h

theorem labGet_set_self {lab : List ℤ} {s : ℕ} {v : ℤ} (h : s < lab.length) :
    labGet (lab.set s v) s = v := by
  unfold labGet
  rw [List.getD_eq_getElem?_getD, List.getElem?_set_self h]
  rfl

theorem labGet_set_ne {lab : List ℤ} {s i : ℕ} {v : ℤ} (h : s ≠ i) :
    labGet (lab.set s v) i = labGet lab i := by
  unfold labGet
  rw [List.getD_eq_getElem?_getD, List.getElem?_set_ne h, ← List.getD_eq_getElem?_getD]

/-! Lemmas about the DBSCAN expansion and seed loop. -/

theorem expandOnce_length (nb : List (List ℕ)) (co : List Bool) (lab : List ℤ) (cl : ℤ) :
    (expandOnce nb co lab cl).length = lab.length := by
  simp [expandOnce]

theorem labGet_expandOnce (nb : List (List ℕ)) (co : List Bool) (lab : List ℤ) (cl : ℤ)
    (i : ℕ) (h : i < lab.length) :
    labGet (expandOnce nb co lab cl) i =
      if labGet lab i == -1 &&
          ((List.range lab.length).any fun j =>
            labGet lab j == cl && co.getD j false && (nb.getD j []).contains i)
      then cl else labGet lab i := by
  unfold expandOnce
  exact getD_range_map _ _ _ _ h

theorem expandOnce_preserve {nb : List (List ℕ)} {co : List Bool} {lab : List ℤ} {cl : ℤ}
    {i : ℕ} (h : labGet lab i ≠ -1) :
    labGet (expandOnce nb co lab cl) i = labGet lab i := by
  by_cases hi : i < lab.length
  · rw [labGet_expandOnce nb co lab cl i hi]
    have hb : (labGet lab i == -1) = false := by
      simpa using h
    simp [hb]
  · exact absurd (labGet_of_ge (Nat.le_of_not_lt hi)) h

theorem expandFix_length (nb : List (List ℕ)) (co : List Bool) :
    ∀ (k : ℕ) (lab : List ℤ) (cl : ℤ), (expandFix nb co k lab cl).length = lab.length := by
  intro k
  induction k with
  | zero => intro lab cl; rfl
  | succ k ih =>
    intro lab cl
    simp only [expandFix]
    split
    · rfl
    · rw [ih, expandOnce_length]

theorem expandFix_preserve {nb : List (List ℕ)} {co : List Bool} :
    ∀ (k : ℕ) (lab : List ℤ) (cl : ℤ) (i : ℕ) (v : ℤ), v ≠ -1 → labGet lab i = v →
      labGet (expandFix nb co k lab cl) i = v := by
  intro k
  induction k with
  | zero => intro lab cl i v _ h; exact h
  | succ k ih =>
    intro lab cl i v hv h
    simp only [expandFix]
    split
    · exact h
    · refine ih _ _ _ v hv ?_
      rw [expandOnce_preserve (by rw [h]; exact hv)]
      exact h

theorem expandOnce_covers {nb : List (List ℕ)} {co : List Bool} {lab : List ℤ} {cl : ℤ}
    {s i : ℕ} (hcl : cl ≠ -1)
    (hs : labGet lab s = cl) (hcore : co.getD s false = true)
    (hmem : i ∈ nb.getD s []) (hi : i < lab.length) (hunlab : labGet lab i = -1) :
    labGet (expandOnce nb co lab cl) i = cl := by
  have hslt : s < lab.length := by
    by_contra hge
    exact hcl (hs.symm.trans (labGet_of_ge (Nat.le_of_not_lt hge)))
  have hany : ((List.range lab.length).any fun j =>
      labGet lab j == cl && co.getD j false && (nb.getD j []).contains i) = true := by
    rw [List.any_eq_true]
    refine ⟨s, List.mem_range.2 hslt, ?_⟩
    have hcont : (nb.getD s []).contains i = true := by
      simpa using hmem
    rw [hs, hcore, hcont]
    simp
  have hcond : (labGet lab i == -1 &&
      ((List.range lab.length).any fun j =>
        labGet lab j == cl && co.getD j false && (nb.getD j []).contains i)) = true := by
    rw [hunlab, hany]
    rfl
  rw [labGet_expandOnce nb co lab cl i hi, if_pos hcond]

theorem expandFix_covers {nb : List (List ℕ)} {co : List Bool} {s : ℕ} {cl : ℤ}
    (hcl : cl ≠ -1) :
    ∀ (k : ℕ) (lab : List ℤ) (i : ℕ), 1 ≤ k →
      labGet lab s = cl → co.getD s false = true →
      i ∈ nb.getD s [] → i < lab.length → labGet lab i = -1 →
      labGet (expandFix nb co k lab cl) i = cl := by
  intro k lab i hk hs hcore hmem hi hunlab
  cases k with
  | zero => exact absurd hk (by omega)
  | succ k =>
    have hcov := expandOnce_covers hcl hs hcore hmem hi hunlab
    simp only [expandFix]
    split
    · rename_i hfix
      rw [hfix] at hcov
      exact absurd (hunlab.symm.trans hcov) (Ne.symm hcl)
    · exact expandFix_preserve k _ cl i cl hcl hcov

theorem dbscanSeeds_length (nb : List (List ℕ)) (co : List Bool) :
    ∀ (seeds : List ℕ) (lab : List ℤ) (next : ℤ),
      (dbscanSeeds nb co seeds lab next).length = lab.length := by
  intro seeds
  induction seeds with
  | nil => intro lab next; rfl
  | cons s rest ih =>
    intro lab next
    simp only [dbscanSeeds]
    split
    · rw [ih, expandFix_length, List.length_set]
    · exact ih lab next

theorem dbscanSeeds_preserve {nb : List (List ℕ)} {co : List Bool} :
    ∀ (seeds : List ℕ) (lab : List ℤ) (next : ℤ) (i : ℕ) (v : ℤ), v ≠ -1 →
      labGet lab i = v → labGet (dbscanSeeds nb co seeds lab next) i = v := by
  intro seeds
  induction seeds with
  | nil => intro lab next i v _ h; exact h
  | cons s rest ih =>
    intro lab next i v hv h
    simp only [dbscanSeeds]
    split
    · rename_i hcond
      refine ih _ _ i v hv ?_
      refine expandFix_preserve _ _ _ i v hv ?_
      have hc1 : labGet lab s = -1 := by
        have hc := hcond
        simp only [Bool.and_eq_true, beq_iff_eq] at hc
        exact hc.1
      have hsne : s ≠ i := by
        intro he
        subst he
        exact hv (h.symm.trans hc1)
      rw [labGet_set_ne hsne]
      exact h
    · exact ih _ _ i v hv h

theorem labGet_eq_getElem {lab : List ℤ} {i : ℕ} (h : i < lab.length) :
    labGet lab i = lab[i] := by
  unfold labGet
  rw [List.getD_eq_getElem?_getD, List.getElem?_eq_getElem h]
  rfl

theorem labGet_mem {lab : List ℤ} {i : ℕ} (h : i < lab.length) : labGet lab i ∈ lab := by
  rw [labGet_eq_getElem h]
  exact List.getElem_mem h

theorem mem_iff_labGet {lab : List ℤ} {a : ℤ} :
    a ∈ lab ↔ ∃ i, i < lab.length ∧ labGet lab i = a := by
  constructor
  · intro h
    obtain ⟨i, hi, he⟩ := List.mem_iff_getElem.1 h
    exact ⟨i, hi, by rw [labGet_eq_getElem hi]; exact he⟩
  · intro ⟨i, hi, he⟩
    exact he ▸ labGet_mem hi

/-- A duplicate-free list of indices below N that all satisfy p is counted by
the filter of range N. -/
theorem nodup_sub_count {m : List ℕ} {N : ℕ} {p : ℕ → Bool}
    (hnd : m.Nodup) (hsub : ∀ i ∈ m, i < N ∧ p i = true) :
    m.length ≤ ((List.range N).filter p).length := by
  have hsub2 : m ⊆ (List.range N).filter p := by
    intro i him
    rw [List.mem_filter, List.mem_range]
    exact ⟨(hsub i him).1, (hsub i him).2⟩
  have hndf : ((List.range N).filter p).Nodup := List.Nodup.filter p (List.nodup_range N)
  calc m.length = m.toFinset.card := (List.toFinset_card_of_nodup hnd).symm
    _ ≤ ((List.range N).filter p).toFinset.card := by
        refine Finset.card_le_card ?_
        intro a ha
        rw [List.mem_toFinset] at ha ⊢
        exact hsub2 ha
    _ = ((List.range N).filter p).length := List.toFinset_card_of_nodup hndf

/-- If any seeding happened, the first cluster formed keeps its seed's entire
neighborhood, so it carries at least min_samples points. -/
theorem dbscanSeeds_first {nb : List (List ℕ)} {co : List Bool} {N : ℕ}
    (hcolen : co.length = N)
    (hco : ∀ j, j < N → co.getD j false = true →
      minSamplesParam ≤ (nb.getD j []).length ∧ (nb.getD j []).Nodup ∧
        ∀ i ∈ nb.getD j [], i < N) :
    ∀ (seeds : List ℕ) (lab : List ℤ) (next : ℤ), lab.length = N → next ≠ -1 →
      (∀ i, labGet lab i = -1) →
      (∀ i, labGet (dbscanSeeds nb co seeds lab next) i = -1) ∨
        minSamplesParam ≤ countLabel (dbscanSeeds nb co seeds lab next) next := by
  intro seeds
  induction seeds with
  | nil => intro lab next _ _ hall; exact Or.inl hall
  | cons s rest ih =>
    intro lab next hlen hnext hall
    simp only [dbscanSeeds]
    split
    · rename_i hcond
      have hcos : co.getD s false = true := by
        simp only [Bool.and_eq_true] at hcond
        exact hcond.2
      have hslt : s < N := by
        by_contra hge
        have hd : co.getD s false = false :=
          List.getD_eq_default co false (by omega)
        rw [hd] at hcos
        exact Bool.false_ne_true hcos
      obtain ⟨hms, hnd, hbound⟩ := hco s hslt hcos
      have hslt2 : s < lab.length := by omega
      have h1s : labGet (lab.set s next) s = next := labGet_set_self hslt2
      have h1len : (lab.set s next).length = lab.length := List.length_set lab s next
      have h2cover : ∀ i ∈ nb.getD s [],
          labGet (expandFix nb co lab.length (lab.set s next) next) i = next := by
        intro i himem
        by_cases his : i = s
        · subst his
          exact expandFix_preserve _ _ _ _ _ hnext h1s
        · have hiu : labGet (lab.set s next) i = -1 := by
            rw [labGet_set_ne (Ne.symm his)]
            exact hall i
          refine expandFix_covers hnext _ _ _ (by omega) h1s hcos himem ?_ hiu
          rw [h1len, hlen]
          exact hbound i himem
      right
      have hfin : ∀ i ∈ nb.getD s [],
          labGet (dbscanSeeds nb co rest
            (expandFix nb co lab.length (lab.set s next) next) (next + 1)) i = next :=
        fun i him => dbscanSeeds_preserve rest _ (next + 1) i next hnext (h2cover i him)
      have hfl : (dbscanSeeds nb co rest
          (expandFix nb co lab.length (lab.set s next) next) (next + 1)).length = N := by
        rw [dbscanSeeds_length, expandFix_length, h1len, hlen]
      refine le_trans hms ?_
      unfold countLabel memberIdxs
      refine nodup_sub_count hnd ?_
      intro i him
      refine ⟨by rw [hfl]; exact hbound i him, ?_⟩
      rw [hfin i him]
      simp
    · exact ih lab next hlen hnext hall

theorem getD_replicate_neg {n i : ℕ} : labGet (List.replicate n (-1 : ℤ)) i = -1 := by
  by_cases h : i < n
  · unfold labGet
    rw [List.getD_eq_getElem?_getD, List.getElem?_replicate]
    simp [h]
  · exact labGet_of_ge (by simpa using Nat.le_of_not_lt h)

/-- If DBSCAN labels any point with a non-noise label, then cluster 0 exists
and carries at least min_samples points. -/
theorem dbscanLabels_first_cluster {pts : List Pt}
    (hne : ∃ i, labGet (dbscanLabels pts) i ≠ -1) :
    minSamplesParam ≤ countLabel (dbscanLabels pts) 0 := by
  have hcolen : ((List.range pts.length).map fun i => isCore pts i).length = pts.length := by
    simp
  have hco : ∀ j, j < pts.length →
      (((List.range pts.length).map fun i => isCore pts i).getD j false = true) →
      minSamplesParam ≤ (((List.range pts.length).map (nbrs pts)).getD j []).length ∧
        (((List.range pts.length).map (nbrs pts)).getD j []).Nodup ∧
        ∀ i ∈ ((List.range pts.length).map (nbrs pts)).getD j [], i < pts.length := by
    intro j hj hcore
    rw [getD_range_map _ _ _ _ hj] at hcore
    rw [getD_range_map _ _ _ _ hj]
    have hms : minSamplesParam ≤ (nbrs pts j).length := by
      unfold isCore at hcore
      exact of_decide_eq_true hcore
    refine ⟨hms, List.Nodup.filter _ (List.nodup_range pts.length), ?_⟩
    intro i him
    unfold nbrs at him
    exact List.mem_range.1 (List.mem_filter.1 him).1
  have h := dbscanSeeds_first hcolen hco (List.range pts.length)
    (List.replicate pts.length (-1)) 0 (by simp) (by omega)
    (fun i => getD_replicate_neg)
  rcases h with h | h
  · obtain ⟨i, hi⟩ := hne
    exact absurd (h i) hi
  · exact h

/-! Bounds for the rounding function and the member counts. -/

theorem pyRoundInt_nonneg {q : ℚ} (h : 0 ≤ q) : 0 ≤ pyRoundInt q := by
  unfold pyRoundInt
  have hf : (0 : ℤ) ≤ ⌊q⌋ := Int.floor_nonneg.2 h
  split
  · exact hf
  · split
    · omega
    · split
      · exact hf
      · omega

theorem pyRoundInt_le {q : ℚ} {M : ℤ} (h : q ≤ (M : ℚ)) : pyRoundInt q ≤ M := by
  unfold pyRoundInt
  have hfM : ⌊q⌋ ≤ M := by
    have := Int.floor_le_floor h
    rwa [Int.floor_intCast] at this
  have hfq : (⌊q⌋ : ℚ) ≤ q := Int.floor_le q
  split
  · exact hfM
  · rename_i hlt
    push_neg at hlt
    split
    · rename_i hgt
      have hq2 : (⌊q⌋ : ℚ) + 1 / 2 < q := by linarith
      have hMlt : (⌊q⌋ : ℚ) < (M : ℚ) := by linarith
      have : ⌊q⌋ < M := by exact_mod_cast hMlt
      omega
    · rename_i hngt
      push_neg at hngt
      have heq : q - (⌊q⌋ : ℚ) = 1 / 2 := le_antisymm hngt hlt
      have hq2 : (⌊q⌋ : ℚ) + 1 / 2 = q := by linarith
      have hMlt : (⌊q⌋ : ℚ) < (M : ℚ) := by linarith
      have hfltM : ⌊q⌋ < M := by exact_mod_cast hMlt
      split
      · exact hfM
      · omega

theorem round2_nonneg {q : ℚ} (h : 0 ≤ q) : 0 ≤ round2 q := by
  unfold round2
  have h1 : 0 ≤ pyRoundInt (q * 100) := pyRoundInt_nonneg (by linarith)
  have h2 : (0 : ℚ) ≤ (pyRoundInt (q * 100) : ℚ) := by exact_mod_cast h1
  linarith

theorem round2_le_100 {q : ℚ} (h : q ≤ 100) : round2 q ≤ 100 := by
  unfold round2
  have h1 : pyRoundInt (q * 100) ≤ (10000 : ℤ) := by
    refine pyRoundInt_le ?_
    push_cast
    linarith
  have h2 : (pyRoundInt (q * 100) : ℚ) ≤ (10000 : ℚ) := by exact_mod_cast h1
  linarith

theorem countLabel_le_length (lab : List ℤ) (l : ℤ) : countLabel lab l ≤ lab.length := by
  unfold countLabel memberIdxs
  calc ((List.range lab.length).filter fun i => labGet lab i == l).length
      ≤ (List.range lab.length).length := List.length_filter_le _ _
    _ = lab.length := List.length_range lab.length

/-! Scaffolding: unfolding the embedded compute_centroid on the success path. -/

theorem compute_centroid_ok {path : String} {r0 : RawRow} {rest : List RawRow}
    {pc town : String} {pts : List Pt}
    (hpath : strEndsWith path ".csv" = true)
    (hpc : r0.lookup "codigo_postal" = some pc)
    (htown : r0.lookup "poblacion" = some town)
    (hbc : buildCoords (r0 :: rest) = some pts) :
    compute_centroid path (r0 :: rest) =
      Except.ok (some (centroidFrom (r0 :: rest) pts pc town)) := by
  unfold compute_centroid
  simp [hpath, hpc, htown, hbc]

theorem candResult_num_points (rows : List RawRow) (pts : List Pt) (lab : List ℤ) (l : ℤ) :
    (candResult rows pts lab l).num_points = countLabel lab l := rfl

theorem candResult_pct (rows : List RawRow) (pts : List Pt) (lab : List ℤ) (l : ℤ) :
    (candResult rows pts lab l).pct =
      round2 ((countLabel lab l : ℚ) / (rows.length : ℚ) * 100) := rfl

theorem centroidFrom_def (rows : List RawRow) (pts : List Pt) (pc town : String) :
    centroidFrom rows pts pc town =
      match sortDesc (((uniqueLabels (dbscanLabels pts)).filter fun x => x != -1).map
        (candResult rows pts (dbscanLabels pts))) with
      | r :: _ => r
      | [] => sentinelResult pc town := rfl

theorem mem_cands {lab : List ℤ} {l : ℤ} :
    l ∈ (uniqueLabels lab).filter (fun x => x != -1) ↔ l ∈ lab ∧ l ≠ -1 := by
  rw [List.mem_filter, mem_uniqueLabels]
  simp

/-- When some non-noise label exists, centroidFrom returns the result built
from a maximal-count candidate cluster. -/
theorem centroidFrom_cluster {rows : List RawRow} {pts : List Pt} {pc town : String}
    {l0 : ℤ} (hl0 : l0 ∈ dbscanLabels pts) (hl0n : l0 ≠ -1) :
    ∃ lw, lw ∈ dbscanLabels pts ∧ lw ≠ -1 ∧
      centroidFrom rows pts pc town = candResult rows pts (dbscanLabels pts) lw ∧
      ∀ l ∈ dbscanLabels pts, l ≠ -1 →
        countLabel (dbscanLabels pts) l ≤ countLabel (dbscanLabels pts) lw := by
  have hc0 : l0 ∈ (uniqueLabels (dbscanLabels pts)).filter (fun x => x != -1) :=
    mem_cands.2 ⟨hl0, hl0n⟩
  have hrne : ((uniqueLabels (dbscanLabels pts)).filter (fun x => x != -1)).map
      (candResult rows pts (dbscanLabels pts)) ≠ [] := by
    intro hemp
    rw [List.map_eq_nil_iff] at hemp
    rw [hemp] at hc0
    exact List.not_mem_nil l0 hc0
  cases hsort : sortDesc (((uniqueLabels (dbscanLabels pts)).filter (fun x => x != -1)).map
      (candResult rows pts (dbscanLabels pts))) with
  | nil => exact absurd hsort (sortDesc_ne_nil hrne)
  | cons r t =>
    obtain ⟨hmax, _, _, _, _⟩ := sortDesc_head_spec _ r t hsort
    have hrmem : r ∈ ((uniqueLabels (dbscanLabels pts)).filter (fun x => x != -1)).map
        (candResult rows pts (dbscanLabels pts)) := by
      obtain ⟨_, pre, post, heq, _⟩ := sortDesc_head_spec _ r t hsort
      rw [heq]
      exact List.mem_append.2 (Or.inr (List.mem_cons_self r post))
    obtain ⟨lw, hlwmem, hlweq⟩ := List.mem_map.1 hrmem
    have hlw2 := mem_cands.1 hlwmem
    refine ⟨lw, hlw2.1, hlw2.2, ?_, ?_⟩
    · rw [centroidFrom_def, hsort, hlweq]
    · intro l hl hln
      have hcand : candResult rows pts (dbscanLabels pts) l ∈
          ((uniqueLabels (dbscanLabels pts)).filter (fun x => x != -1)).map
            (candResult rows pts (dbscanLabels pts)) :=
        List.mem_map.2 ⟨l, mem_cands.2 ⟨hl, hln⟩, rfl⟩
      have hle := hmax _ hcand
      rw [← hlweq, candResult_num_points, candResult_num_points] at hle
      exact hle

theorem buildCoords_length :
    ∀ {rows : List RawRow} {pts : List Pt}, buildCoords rows = some pts →
      pts.length = rows.length := by
  intro rows
  induction rows with
  | nil => intro pts h; cases h; rfl
  | cons r rs ih =>
    intro pts h
    unfold buildCoords at h
    cases hxy : rowXY r with
    | none => rw [hxy] at h; cases h
    | some p =>
      rw [hxy] at h
      cases hbc : buildCoords rs with
      | none => rw [hbc] at h; cases h
      | some ps =>
        rw [hbc] at h
        cases h
        simp [ih hbc]

theorem buildCoords_getD :
    ∀ {rows : List RawRow} {pts : List Pt}, buildCoords rows = some pts →
      ∀ i < rows.length, rowXY (rowGet rows i) = some (ptGet pts i) := by
  intro rows
  induction rows with
  | nil => intro pts _ i hi; simp at hi
  | cons r rs ih =>
    intro pts h i hi
    unfold buildCoords at h
    cases hxy : rowXY r with
    | none => rw [hxy] at h; cases h
    | some p =>
      rw [hxy] at h
      cases hbc : buildCoords rs with
      | none => rw [hbc] at h; cases h
      | some ps =>
        rw [hbc] at h
        cases h
        cases i with
        | zero => simpa [rowGet, ptGet] using hxy
        | succ k =>
          have hk : k < rs.length := by simpa using hi
          simpa [rowGet, ptGet] using ih hbc k hk

theorem dbscanLabels_length (pts : List Pt) : (dbscanLabels pts).length = pts.length := by
  unfold dbscanLabels
  rw [dbscanSeeds_length, List.length_replicate]

theorem countLabel_pos_mem {lab : List ℤ} {l : ℤ} (h : 0 < countLabel lab l) : l ∈ lab := by
  unfold countLabel memberIdxs at h
  obtain ⟨i, hi⟩ := List.exists_mem_of_length_pos h
  have h2 := List.mem_filter.1 hi
  have h3 : labGet lab i = l := by simpa using h2.2
  have h4 : i < lab.length := List.mem_range.1 h2.1
  exact h3 ▸ labGet_mem h4

theorem ptGet_map_getD {pts : List Pt} {f : Pt → ℚ} {j : ℕ} (h : j < pts.length) :
    (pts.map f).getD j 0 = f (ptGet pts j) := by
  unfold ptGet
  rw [List.getD_eq_getElem?_getD, List.getElem?_map, List.getElem?_eq_getElem h,
    List.getD_eq_getElem?_getD, List.getElem?_eq_getElem h]
  rfl

end DCAC

namespace DCAC

/-! The claim theorems. -/

/-- C3: the claim says a partition file with zero data rows is rejected with
a logged failure signal, never an uncaught exception.  The code evaluates
rows[0]["codigo_postal"] outside any try block, so the empty file raises an
uncaught IndexError: this theorem evaluates the embedding at that failing
input. -/
theorem C3_zero_rows_raises :
    compute_centroid "46001.csv" [] = Except.error PyErr.indexError := by
  decide

/-- C2: a partition file that parses with at least one row and valid
coordinates, but in which DBSCAN labels every point as noise (-1), yields the
sentinel record carrying num_points = 0, pct = 0, x = y = None, and the
codigo_postal and poblacion of the file's first row; it never returns zero
results. -/
theorem C2_all_noise_sentinel {path : String} {r0 : RawRow} {rest : List RawRow}
    {pc town : String} {pts : List Pt}
    (hpath : strEndsWith path ".csv" = true)
    (hpc : r0.lookup "codigo_postal" = some pc)
    (htown : r0.lookup "poblacion" = some town)
    (hbc : buildCoords (r0 :: rest) = some pts)
    (hnoise : ∀ l ∈ dbscanLabels pts, l = -1) :
    compute_centroid path (r0 :: rest) = Except.ok (some (sentinelResult pc town)) := by
  rw [compute_centroid_ok hpath hpc htown hbc, centroidFrom_def]
  have hcands : (uniqueLabels (dbscanLabels pts)).filter (fun x => x != -1) = [] := by
    rw [List.filter_eq_nil_iff]
    intro a ha
    have h := hnoise a (mem_uniqueLabels.1 ha)
    simp [h]
  rw [hcands]
  rfl

/-- Witness for C2: a single-row file; one point cannot reach min_samples = 20,
so DBSCAN labels it noise and the sentinel is returned. -/
theorem C2_all_noise_sentinel_witness :
    (∀ l ∈ dbscanLabels [((0 : ℚ), (0 : ℚ))], l = -1) ∧
    compute_centroid "46001.csv" [mkRow "0"] =
      Except.ok (some (sentinelResult "46001" "Valencia")) :=
  ⟨by with_unfolding_all decide,
   @C2_all_noise_sentinel "46001.csv" (mkRow "0") [] "46001" "Valencia"
     [((0 : ℚ), (0 : ℚ))]
     (by with_unfolding_all decide) (by with_unfolding_all decide)
     (by with_unfolding_all decide) (by with_unfolding_all decide)
     (by with_unfolding_all decide)⟩

/-- C5: for a partition with at least one non-noise cluster, the result has
num_points bounded by the number of rows, pct between 0 and 100, and pct
equal to round(num_points / total_rows * 100, 2). -/
theorem C5_pct_bounds {path : String} {r0 : RawRow} {rest : List RawRow}
    {pc town : String} {pts : List Pt} {l0 : ℤ}
    (hpath : strEndsWith path ".csv" = true)
    (hpc : r0.lookup "codigo_postal" = some pc)
    (htown : r0.lookup "poblacion" = some town)
    (hbc : buildCoords (r0 :: rest) = some pts)
    (hl0 : l0 ∈ dbscanLabels pts) (hl0n : l0 ≠ -1) :
    ∃ res, compute_centroid path (r0 :: rest) = Except.ok (some res) ∧
      res.num_points ≤ (r0 :: rest).length ∧
      0 ≤ res.pct ∧ res.pct ≤ 100 ∧
      res.pct = round2 ((res.num_points : ℚ) / ((r0 :: rest).length : ℚ) * 100) := by
  obtain ⟨lw, hlw, hlwn, heq, _⟩ :=
    @centroidFrom_cluster (r0 :: rest) pts pc town l0 hl0 hl0n
  refine ⟨candResult (r0 :: rest) pts (dbscanLabels pts) lw, ?_, ?_, ?_, ?_, ?_⟩
  · rw [compute_centroid_ok hpath hpc htown hbc, heq]
  · rw [candResult_num_points]
    calc countLabel (dbscanLabels pts) lw ≤ (dbscanLabels pts).length :=
          countLabel_le_length _ _
      _ = pts.length := dbscanLabels_length pts
      _ = (r0 :: rest).length := buildCoords_length hbc
  · rw [candResult_pct]
    refine round2_nonneg ?_
    have hn : (0 : ℚ) < ((r0 :: rest).length : ℚ) := by
      have : 0 < (r0 :: rest).length := by simp
      exact_mod_cast this
    positivity
  · rw [candResult_pct]
    refine round2_le_100 ?_
    have hcle : countLabel (dbscanLabels pts) lw ≤ (r0 :: rest).length := by
      calc countLabel (dbscanLabels pts) lw ≤ (dbscanLabels pts).length :=
            countLabel_le_length _ _
        _ = pts.length := dbscanLabels_length pts
        _ = (r0 :: rest).length := buildCoords_length hbc
    have hn : (0 : ℚ) < ((r0 :: rest).length : ℚ) := by
      have : 0 < (r0 :: rest).length := by simp
      exact_mod_cast this
    have hq : (countLabel (dbscanLabels pts) lw : ℚ) ≤ ((r0 :: rest).length : ℚ) := by
      exact_mod_cast hcle
    rw [div_mul_eq_mul_div, div_le_iff₀ hn]
    linarith
  · rw [candResult_pct, candResult_num_points]

/-- Witness for C5: the 20-point single-cluster file rowsA. -/
theorem C5_pct_bounds_witness :
    ((0 : ℤ) ∈ dbscanLabels (((List.range 19).map fun i => ((i : ℚ), (0 : ℚ))) ++
        [((28 : ℚ), (0 : ℚ))])) ∧
    ∃ res, compute_centroid "46001.csv" rowsA = Except.ok (some res) ∧
      res.num_points ≤ rowsA.length ∧
      0 ≤ res.pct ∧ res.pct ≤ 100 ∧
      res.pct = round2 ((res.num_points : ℚ) / (rowsA.length : ℚ) * 100) :=
  ⟨by with_unfolding_all decide,
   by
    have h := @C5_pct_bounds "46001.csv" (mkRow "0")
      (((List.range 18).map fun i => mkRow (toString (i + 1))) ++ [mkRow "28"])
      "46001" "Valencia"
      (((List.range 19).map fun i => ((i : ℚ), (0 : ℚ))) ++ [((28 : ℚ), (0 : ℚ))])
      0
      (by with_unfolding_all decide) (by with_unfolding_all decide)
      (by with_unfolding_all decide) (by with_unfolding_all decide)
      (by with_unfolding_all decide) (by with_unfolding_all decide)
    have hrows : (mkRow "0" :: (((List.range 18).map fun i => mkRow (toString (i + 1))) ++
        [mkRow "28"])) = rowsA := by with_unfolding_all decide
    rwa [hrows] at h⟩

/-- C10 counterexample: in the border-stealing file, cluster 1 exists but has
only 19 members (one of its core point's 20 neighbors, the shared border
point, was claimed by cluster 0), refuting the claim that every non-noise
cluster holds at least min_samples = 20 points of its own. -/
theorem C10_counterexample :
    buildCoords stealRows = some stealPts ∧
    (1 : ℤ) ∈ dbscanLabels stealPts ∧
    countLabel (dbscanLabels stealPts) 1 = 19 ∧
    19 < minSamplesParam := by
  with_unfolding_all decide

/-- C10 (amended): every non-sentinel result still has num_points ≥
min_samples = 20, but for a different reason than the claim gives: the first
cluster formed keeps its seed core point's entire 250-unit neighborhood
(at least 20 points), and the winner's member count is at least the first
cluster's; clusters formed later can lose border points to earlier clusters
and may hold fewer than 20 members. -/
theorem C10_amended {path : String} {r0 : RawRow} {rest : List RawRow}
    {pc town : String} {pts : List Pt} {l0 : ℤ}
    (hpath : strEndsWith path ".csv" = true)
    (hpc : r0.lookup "codigo_postal" = some pc)
    (htown : r0.lookup "poblacion" = some town)
    (hbc : buildCoords (r0 :: rest) = some pts)
    (hl0 : l0 ∈ dbscanLabels pts) (hl0n : l0 ≠ -1) :
    ∃ res, compute_centroid path (r0 :: rest) = Except.ok (some res) ∧
      minSamplesParam ≤ res.num_points := by
  obtain ⟨lw, hlw, hlwn, heq, hmax⟩ :=
    @centroidFrom_cluster (r0 :: rest) pts pc town l0 hl0 hl0n
  have hne : ∃ i, labGet (dbscanLabels pts) i ≠ -1 := by
    obtain ⟨i, _, he⟩ := mem_iff_labGet.1 hl0
    exact ⟨i, by rw [he]; exact hl0n⟩
  have h20 := dbscanLabels_first_cluster hne
  have hpos : 0 < countLabel (dbscanLabels pts) 0 := by
    have : 0 < minSamplesParam := by norm_num [minSamplesParam]
    omega
  have h0mem : (0 : ℤ) ∈ dbscanLabels pts := countLabel_pos_mem hpos
  have hle := hmax 0 h0mem (by norm_num)
  refine ⟨candResult (r0 :: rest) pts (dbscanLabels pts) lw, ?_, ?_⟩
  · rw [compute_centroid_ok hpath hpc htown hbc, heq]
  · rw [candResult_num_points]
    exact le_trans h20 hle

/-- Witness for C10 (amended): the single-cluster file rowsA yields a result
with num_points = 20. -/
theorem C10_amended_witness :
    ((0 : ℤ) ∈ dbscanLabels ptsA) ∧
    ∃ res, compute_centroid "46001.csv" rowsA = Except.ok (some res) ∧
      minSamplesParam ≤ res.num_points :=
  ⟨by with_unfolding_all decide,
   by
    have h := @C10_amended "46001.csv" (mkRow "0")
      (((List.range 18).map fun i => mkRow (toString (i + 1))) ++ [mkRow "28"])
      "46001" "Valencia" ptsA 0
      (by with_unfolding_all decide) (by with_unfolding_all decide)
      (by with_unfolding_all decide) (by with_unfolding_all decide)
      (by with_unfolding_all decide) (by with_unfolding_all decide)
    have hrows : (mkRow "0" :: (((List.range 18).map fun i => mkRow (toString (i + 1))) ++
        [mkRow "28"])) = rowsA := by with_unfolding_all decide
    rwa [hrows] at h⟩

theorem mem_countLabel_pos {lab : List ℤ} {l : ℤ} (h : l ∈ lab) : 0 < countLabel lab l := by
  obtain ⟨i, hi, he⟩ := mem_iff_labGet.1 h
  have hmem : i ∈ memberIdxs lab l := by
    unfold memberIdxs
    rw [List.mem_filter, List.mem_range]
    exact ⟨hi, by simp [he]⟩
  unfold countLabel
  exact List.length_pos.2 (fun hemp => by rw [hemp] at hmem; exact List.not_mem_nil i hmem)

theorem candResult_fields (rows : List RawRow) (pts : List Pt) (lab : List ℤ) (l : ℤ) :
    (candResult rows pts lab l).fields =
      (rowGet rows (argminIdx (pts.map fun p =>
        sqdist p (centroidOf pts lab l)))).map fun kv => (kv.1, some kv.2) := rfl

theorem centroidOf_mul_count {pts : List Pt} {lab : List ℤ} {l : ℤ}
    (h : 0 < countLabel lab l) :
    (countLabel lab l : ℚ) * (centroidOf pts lab l).1 =
        ((memberIdxs lab l).map fun i => (ptGet pts i).1).sum ∧
      (countLabel lab l : ℚ) * (centroidOf pts lab l).2 =
        ((memberIdxs lab l).map fun i => (ptGet pts i).2).sum := by
  have hne : ((memberIdxs lab l).length : ℚ) ≠ 0 := by
    have : (memberIdxs lab l).length ≠ 0 := by
      unfold countLabel at h
      omega
    exact_mod_cast this
  unfold countLabel centroidOf
  constructor
  · rw [mul_div_cancel₀]
    exact hne
  · rw [mul_div_cancel₀]
    exact hne

/-- C1: for a partition file that parses with at least one row, valid finite
coordinates, and at least one non-noise cluster, the result is built from a
maximal-member-count candidate cluster: its num_points is that cluster's
member count, the cluster's geometric centroid is the arithmetic mean of its
members' coordinates, and the representative record is an original row whose
(squared) Euclidean distance to that centroid is minimal over all rows of
the file, noise rows included. -/
theorem C1_winner_representative {path : String} {r0 : RawRow} {rest : List RawRow}
    {pc town : String} {pts : List Pt} {l0 : ℤ}
    (hpath : strEndsWith path ".csv" = true)
    (hpc : r0.lookup "codigo_postal" = some pc)
    (htown : r0.lookup "poblacion" = some town)
    (hbc : buildCoords (r0 :: rest) = some pts)
    (hl0 : l0 ∈ dbscanLabels pts) (hl0n : l0 ≠ -1) :
    ∃ res lw k,
      compute_centroid path (r0 :: rest) = Except.ok (some res) ∧
      lw ∈ dbscanLabels pts ∧ lw ≠ -1 ∧
      res.num_points = countLabel (dbscanLabels pts) lw ∧
      (∀ l ∈ dbscanLabels pts, l ≠ -1 →
        countLabel (dbscanLabels pts) l ≤ countLabel (dbscanLabels pts) lw) ∧
      (countLabel (dbscanLabels pts) lw : ℚ) *
          (centroidOf pts (dbscanLabels pts) lw).1 =
        ((memberIdxs (dbscanLabels pts) lw).map fun i => (ptGet pts i).1).sum ∧
      (countLabel (dbscanLabels pts) lw : ℚ) *
          (centroidOf pts (dbscanLabels pts) lw).2 =
        ((memberIdxs (dbscanLabels pts) lw).map fun i => (ptGet pts i).2).sum ∧
      k < (r0 :: rest).length ∧
      res.fields = (rowGet (r0 :: rest) k).map (fun kv => (kv.1, some kv.2)) ∧
      (∀ j < (r0 :: rest).length,
        sqdist (ptGet pts k) (centroidOf pts (dbscanLabels pts) lw) ≤
          sqdist (ptGet pts j) (centroidOf pts (dbscanLabels pts) lw)) := by
  obtain ⟨lw, hlw, hlwn, heq, hmax⟩ :=
    @centroidFrom_cluster (r0 :: rest) pts pc town l0 hl0 hl0n
  have hlen : pts.length = (r0 :: rest).length := buildCoords_length hbc
  have hptsne : pts ≠ [] := by
    intro hemp
    rw [hemp] at hlen
    simp at hlen
  have hdsne : (pts.map fun p => sqdist p (centroidOf pts (dbscanLabels pts) lw)) ≠ [] := by
    simpa using hptsne
  have hdslen : (pts.map fun p =>
      sqdist p (centroidOf pts (dbscanLabels pts) lw)).length = pts.length := by
    simp
  have hk : argminIdx (pts.map fun p =>
      sqdist p (centroidOf pts (dbscanLabels pts) lw)) < pts.length := by
    have := argminIdx_lt_length _ hdsne
    omega
  obtain ⟨hc1, hc2⟩ := @centroidOf_mul_count pts (dbscanLabels pts) lw (mem_countLabel_pos hlw)
  refine ⟨candResult (r0 :: rest) pts (dbscanLabels pts) lw, lw,
    argminIdx (pts.map fun p => sqdist p (centroidOf pts (dbscanLabels pts) lw)),
    ?_, hlw, hlwn, candResult_num_points _ _ _ _, hmax, hc1, hc2, by omega,
    candResult_fields _ _ _ _, ?_⟩
  · rw [compute_centroid_ok hpath hpc htown hbc, heq]
  · intro j hj
    have hjp : j < pts.length := by omega
    have hmin : (pts.map fun p => sqdist p (centroidOf pts (dbscanLabels pts) lw)).getD
        (argminIdx (pts.map fun p => sqdist p (centroidOf pts (dbscanLabels pts) lw))) 0 ≤
        (pts.map fun p => sqdist p (centroidOf pts (dbscanLabels pts) lw)).getD j 0 := by
      rw [getD_argminIdx _ hdsne]
      exact listMin_le _ j (by omega)
    rwa [ptGet_map_getD hk, ptGet_map_getD hjp] at hmin

/-- Witness for C1: the single-cluster file rowsA. -/
theorem C1_winner_representative_witness :
    ((0 : ℤ) ∈ dbscanLabels ptsA) ∧
    ∃ res lw k,
      compute_centroid "46001.csv" rowsA = Except.ok (some res) ∧
      lw ∈ dbscanLabels ptsA ∧ lw ≠ -1 ∧
      res.num_points = countLabel (dbscanLabels ptsA) lw ∧
      (∀ l ∈ dbscanLabels ptsA, l ≠ -1 →
        countLabel (dbscanLabels ptsA) l ≤ countLabel (dbscanLabels ptsA) lw) ∧
      (countLabel (dbscanLabels ptsA) lw : ℚ) *
          (centroidOf ptsA (dbscanLabels ptsA) lw).1 =
        ((memberIdxs (dbscanLabels ptsA) lw).map fun i => (ptGet ptsA i).1).sum ∧
      (countLabel (dbscanLabels ptsA) lw : ℚ) *
          (centroidOf ptsA (dbscanLabels ptsA) lw).2 =
        ((memberIdxs (dbscanLabels ptsA) lw).map fun i => (ptGet ptsA i).2).sum ∧
      k < rowsA.length ∧
      res.fields = (rowGet rowsA k).map (fun kv => (kv.1, some kv.2)) ∧
      (∀ j < rowsA.length,
        sqdist (ptGet ptsA k) (centroidOf ptsA (dbscanLabels ptsA) lw) ≤
          sqdist (ptGet ptsA j) (centroidOf ptsA (dbscanLabels ptsA) lw)) :=
  ⟨by with_unfolding_all decide,
   by
    have h := @C1_winner_representative "46001.csv" (mkRow "0")
      (((List.range 18).map fun i => mkRow (toString (i + 1))) ++ [mkRow "28"])
      "46001" "Valencia" ptsA 0
      (by with_unfolding_all decide) (by with_unfolding_all decide)
      (by with_unfolding_all decide) (by with_unfolding_all decide)
      (by with_unfolding_all decide) (by with_unfolding_all decide)
    have hrows : (mkRow "0" :: (((List.range 18).map fun i => mkRow (toString (i + 1))) ++
        [mkRow "28"])) = rowsA := by with_unfolding_all decide
    rwa [hrows] at h⟩

/-- C9: when two or more candidate clusters are tied at the maximal member
count, the winner is the tied candidate with the lowest numeric label:
np.unique produces the candidates in ascending label order and the final
stable sort by num_points descending preserves that order among ties. -/
theorem C9_tie_lowest_label {path : String} {r0 : RawRow} {rest : List RawRow}
    {pc town : String} {pts : List Pt} {l1 l2 : ℤ} {M : ℕ}
    (hpath : strEndsWith path ".csv" = true)
    (hpc : r0.lookup "codigo_postal" = some pc)
    (htown : r0.lookup "poblacion" = some town)
    (hbc : buildCoords (r0 :: rest) = some pts)
    (h1 : l1 ∈ dbscanLabels pts) (h1n : l1 ≠ -1)
    (h2 : l2 ∈ dbscanLabels pts) (h2n : l2 ≠ -1) (h12 : l1 ≠ l2)
    (hc1 : countLabel (dbscanLabels pts) l1 = M)
    (hc2 : countLabel (dbscanLabels pts) l2 = M)
    (hmaxM : ∀ l ∈ dbscanLabels pts, l ≠ -1 → countLabel (dbscanLabels pts) l ≤ M) :
    ∃ lw, lw ∈ dbscanLabels pts ∧ lw ≠ -1 ∧
      countLabel (dbscanLabels pts) lw = M ∧
      (∀ l ∈ dbscanLabels pts, l ≠ -1 → countLabel (dbscanLabels pts) l = M → lw ≤ l) ∧
      compute_centroid path (r0 :: rest) =
        Except.ok (some (candResult (r0 :: rest) pts (dbscanLabels pts) lw)) := by
  have hcand1 : l1 ∈ (uniqueLabels (dbscanLabels pts)).filter (fun x => x != -1) :=
    mem_cands.2 ⟨h1, h1n⟩
  have hrne : ((uniqueLabels (dbscanLabels pts)).filter (fun x => x != -1)).map
      (candResult (r0 :: rest) pts (dbscanLabels pts)) ≠ [] := by
    intro hemp
    rw [List.map_eq_nil_iff] at hemp
    rw [hemp] at hcand1
    exact List.not_mem_nil l1 hcand1
  cases hsort : sortDesc (((uniqueLabels (dbscanLabels pts)).filter (fun x => x != -1)).map
      (candResult (r0 :: rest) pts (dbscanLabels pts))) with
  | nil => exact absurd hsort (sortDesc_ne_nil hrne)
  | cons r t =>
    obtain ⟨hmaxall, pre, post, hdec, hpre⟩ := sortDesc_head_spec _ r t hsort
    obtain ⟨c1, c2, hcands, hmap1, hmap2⟩ := List.map_eq_append_iff.1 hdec
    obtain ⟨x, c3, hc2eq, hfx, hmap3⟩ := List.map_eq_cons_iff.1 hmap2
    subst hc2eq
    have hxmem : x ∈ (uniqueLabels (dbscanLabels pts)).filter (fun x => x != -1) := by
      rw [hcands]
      exact List.mem_append.2 (Or.inr (List.mem_cons_self x c3))
    have hx2 := mem_cands.1 hxmem
    have hrnum : r.num_points = M := by
      have hub : r.num_points ≤ M := by
        rw [← hfx, candResult_num_points]
        exact hmaxM x hx2.1 hx2.2
      have hlb : M ≤ r.num_points := by
        have hmem1 : candResult (r0 :: rest) pts (dbscanLabels pts) l1 ∈
            ((uniqueLabels (dbscanLabels pts)).filter (fun x => x != -1)).map
              (candResult (r0 :: rest) pts (dbscanLabels pts)) :=
          List.mem_map.2 ⟨l1, hcand1, rfl⟩
        have := hmaxall _ hmem1
        rw [candResult_num_points, hc1] at this
        exact this
      omega
    have hxcount : countLabel (dbscanLabels pts) x = M := by
      have : (candResult (r0 :: rest) pts (dbscanLabels pts) x).num_points = M := by
        rw [hfx, hrnum]
      rwa [candResult_num_points] at this
    have hpair : ((uniqueLabels (dbscanLabels pts)).filter
        (fun x => x != -1)).Pairwise (· < ·) :=
      List.Pairwise.filter _ (uniqueLabels_pairwise (dbscanLabels pts))
    refine ⟨x, hx2.1, hx2.2, hxcount, ?_, ?_⟩
    · intro l hl hln hlM
      have hlcand : l ∈ (uniqueLabels (dbscanLabels pts)).filter (fun x => x != -1) :=
        mem_cands.2 ⟨hl, hln⟩
      rw [hcands] at hlcand
      rcases List.mem_append.1 hlcand with hlc1 | hlc2
      · exfalso
        have hflpre : candResult (r0 :: rest) pts (dbscanLabels pts) l ∈ pre := by
          rw [← hmap1]
          exact List.mem_map.2 ⟨l, hlc1, rfl⟩
        have := hpre _ hflpre
        rw [candResult_num_points, hlM, hrnum] at this
        omega
      · rcases List.mem_cons.1 hlc2 with hlx | hlc3
        · exact le_of_eq (hlx ▸ rfl)
        · rw [hcands] at hpair
          have hp2 := (List.pairwise_append.1 hpair).2.1
          exact le_of_lt ((List.pairwise_cons.1 hp2).1 l hlc3)
    · rw [compute_centroid_ok hpath hpc htown hbc, centroidFrom_def, hsort, ← hfx]

/-- Witness for C9: the two-tied-cluster file rowsAB (clusters 0 and 1, each
with 20 of the 40 rows); the winner is the label-0 cluster. -/
theorem C9_tie_lowest_label_witness :
    ((0 : ℤ) ∈ dbscanLabels (ptsA ++ (ptsA.map fun p => (p.1 + 1000, p.2)))) ∧
    ((1 : ℤ) ∈ dbscanLabels (ptsA ++ (ptsA.map fun p => (p.1 + 1000, p.2)))) ∧
    ∃ lw, lw ∈ dbscanLabels (ptsA ++ (ptsA.map fun p => (p.1 + 1000, p.2))) ∧ lw ≠ -1 ∧
      countLabel (dbscanLabels (ptsA ++ (ptsA.map fun p => (p.1 + 1000, p.2)))) lw = 20 ∧
      (∀ l ∈ dbscanLabels (ptsA ++ (ptsA.map fun p => (p.1 + 1000, p.2))), l ≠ -1 →
        countLabel (dbscanLabels (ptsA ++ (ptsA.map fun p => (p.1 + 1000, p.2)))) l = 20 →
          lw ≤ l) ∧
      compute_centroid "46001.csv" rowsAB =
        Except.ok (some (candResult rowsAB (ptsA ++ (ptsA.map fun p => (p.1 + 1000, p.2)))
          (dbscanLabels (ptsA ++ (ptsA.map fun p => (p.1 + 1000, p.2)))) lw)) :=
  ⟨by with_unfolding_all decide, by with_unfolding_all decide,
   by
    have h := @C9_tie_lowest_label "46001.csv" (mkRow "0")
      ((((List.range 18).map fun i => mkRow (toString (i + 1))) ++ [mkRow "28"]) ++ rowsB)
      "46001" "Valencia"
      (ptsA ++ (ptsA.map fun p => (p.1 + 1000, p.2)))
      0 1 20
      (by with_unfolding_all decide) (by with_unfolding_all decide)
      (by with_unfolding_all decide) (by with_unfolding_all decide)
      (by with_unfolding_all decide) (by with_unfolding_all decide)
      (by with_unfolding_all decide) (by with_unfolding_all decide)
      (by with_unfolding_all decide)
      (by with_unfolding_all decide) (by with_unfolding_all decide)
      (by with_unfolding_all decide)
    have hrows : (mkRow "0" :: ((((List.range 18).map fun i =>
        mkRow (toString (i + 1))) ++ [mkRow "28"]) ++ rowsB)) = rowsAB := by
      with_unfolding_all decide
    rwa [hrows] at h⟩

/-- C4: the claim says a non-Point geometry is rejected by logging, with the
record kept and its x and y set to null, and that no exception is raised.
In the source, transform_coordinates does return None on that path (the
logging half of the claim), but create_feature_dict immediately unpacks the
result with "x, y = transform_coordinates(...)", so the None raises an
uncaught TypeError and the record is lost: this theorem evaluates the
embedding at such a feature, for every transform and every property list. -/
theorem C4_nonpoint_raises (T : ℚ → ℚ → ℚ × ℚ) (tn : String)
    (props : List (String × Option String)) :
    transform_coordinates T (Geometry.other tn) = none ∧
    create_feature_dict T (Feature.mk (Geometry.other tn) props) =
      Except.error PyErr.typeError :=
  ⟨rfl, rfl⟩

/-! Lemmas for the partitioner (extract_postcodes). -/

theorem appendPart_keys_sub {m : List (String × List FeatureDict)} {pc : String}
    {fd : FeatureDict} {a : String} :
    a ∈ (appendPart m pc fd).map Prod.fst → a ∈ m.map Prod.fst ∨ a = pc := by
  induction m with
  | nil =>
    intro h
    simp [appendPart] at h
    exact Or.inr h
  | cons kl rest ih =>
    intro h
    rw [show appendPart (kl :: rest) pc fd =
        if kl.1 = pc then (kl.1, kl.2 ++ [fd]) :: rest
        else kl :: appendPart rest pc fd from by
      cases kl; rfl] at h
    split at h
    · rename_i hk
      rw [List.map_cons] at h
      rcases List.mem_cons.1 h with h1 | h1
      · exact Or.inl (by rw [List.map_cons]; exact List.mem_cons.2 (Or.inl h1))
      · exact Or.inl (by rw [List.map_cons]; exact List.mem_cons.2 (Or.inr h1))
    · rw [List.map_cons] at h
      rcases List.mem_cons.1 h with h1 | h1
      · exact Or.inl (by rw [List.map_cons]; exact List.mem_cons.2 (Or.inl h1))
      · rcases ih h1 with h2 | h2
        · exact Or.inl (by rw [List.map_cons]; exact List.mem_cons.2 (Or.inr h2))
        · exact Or.inr h2

theorem appendPart_keys_nodup {m : List (String × List FeatureDict)} {pc : String}
    {fd : FeatureDict} (h : (m.map Prod.fst).Nodup) :
    ((appendPart m pc fd).map Prod.fst).Nodup := by
  induction m with
  | nil => simp [appendPart]
  | cons kl rest ih =>
    rw [show appendPart (kl :: rest) pc fd =
        if kl.1 = pc then (kl.1, kl.2 ++ [fd]) :: rest
        else kl :: appendPart rest pc fd from by
      cases kl; rfl]
    rw [List.map_cons] at h
    have hnd := List.nodup_cons.1 h
    split
    · rename_i hk
      rw [List.map_cons]
      exact List.nodup_cons.2 hnd
    · rename_i hk
      rw [List.map_cons]
      refine List.nodup_cons.2 ⟨?_, ih hnd.2⟩
      intro hmem
      rcases appendPart_keys_sub hmem with h1 | h1
      · exact hnd.1 h1
      · exact hk h1

theorem appendPart_records {m : List (String × List FeatureDict)} {pc : String}
    {fd : FeatureDict}
    (hrec : ∀ pr ∈ m, pr.1 ≠ "" ∧
      ∀ r ∈ pr.2, r.lookup "codigo_postal" = some (PyVal.vstr pr.1))
    (hfd : fd.lookup "codigo_postal" = some (PyVal.vstr pc)) (hpc : pc ≠ "") :
    ∀ pr ∈ appendPart m pc fd, pr.1 ≠ "" ∧
      ∀ r ∈ pr.2, r.lookup "codigo_postal" = some (PyVal.vstr pr.1) := by
  induction m with
  | nil =>
    intro pr hpr
    simp [appendPart] at hpr
    subst hpr
    exact ⟨hpc, by
      intro r hr
      simp at hr
      subst hr
      exact hfd⟩
  | cons kl rest ih =>
    intro pr hpr
    rw [show appendPart (kl :: rest) pc fd =
        if kl.1 = pc then (kl.1, kl.2 ++ [fd]) :: rest
        else kl :: appendPart rest pc fd from by
      cases kl; rfl] at hpr
    have hklrec := hrec kl (List.mem_cons_self kl rest)
    split at hpr
    · rename_i hk
      rcases List.mem_cons.1 hpr with h1 | h1
      · subst h1
        refine ⟨hklrec.1, ?_⟩
        intro r hr
        rcases List.mem_append.1 hr with h2 | h2
        · exact hklrec.2 r h2
        · have : r = fd := by simpa using h2
          subst this
          rw [hfd, hk]
      · exact hrec pr (List.mem_cons_of_mem kl h1)
    · rcases List.mem_cons.1 hpr with h1 | h1
      · subst h1
        exact hklrec
      · exact ih (fun q hq => hrec q (List.mem_cons_of_mem kl hq)) pr h1

theorem appendPart_mem_self (m : List (String × List FeatureDict)) (pc : String)
    (fd : FeatureDict) :
    ∃ recs, (pc, recs) ∈ appendPart m pc fd ∧ fd ∈ recs := by
  induction m with
  | nil => exact ⟨[fd], by simp [appendPart], by simp⟩
  | cons kl rest ih =>
    rw [show appendPart (kl :: rest) pc fd =
        if kl.1 = pc then (kl.1, kl.2 ++ [fd]) :: rest
        else kl :: appendPart rest pc fd from by
      cases kl; rfl]
    split
    · rename_i hk
      exact ⟨kl.2 ++ [fd], by rw [hk]; exact List.mem_cons_self _ _, by simp⟩
    · obtain ⟨recs, hmem, hfdm⟩ := ih
      exact ⟨recs, List.mem_cons_of_mem kl hmem, hfdm⟩

theorem appendPart_persist (pc : String) (fd : FeatureDict)
    {m : List (String × List FeatureDict)} {pc0 : String} {recs0 : List FeatureDict}
    (h : (pc0, recs0) ∈ m) :
    ∃ recs2, (pc0, recs2) ∈ appendPart m pc fd ∧ ∀ r ∈ recs0, r ∈ recs2 := by
  induction m with
  | nil => simp at h
  | cons kl rest ih =>
    rw [show appendPart (kl :: rest) pc fd =
        if kl.1 = pc then (kl.1, kl.2 ++ [fd]) :: rest
        else kl :: appendPart rest pc fd from by
      cases kl; rfl]
    split
    · rename_i hk
      rcases List.mem_cons.1 h with h1 | h1
      · have hpc0 : pc0 = kl.1 := congrArg Prod.fst h1
        have hrecs0 : recs0 = kl.2 := congrArg Prod.snd h1
        refine ⟨kl.2 ++ [fd], ?_, ?_⟩
        · rw [hpc0]
          exact List.mem_cons_self _ _
        · intro r hr
          exact List.mem_append.2 (Or.inl (hrecs0 ▸ hr))
      · exact ⟨recs0, List.mem_cons_of_mem _ h1, fun r hr => hr⟩
    · rcases List.mem_cons.1 h with h1 | h1
      · exact ⟨recs0, h1 ▸ List.mem_cons_self _ _, fun r hr => hr⟩
      · obtain ⟨recs2, hmem, hsub⟩ := ih h1
        exact ⟨recs2, List.mem_cons_of_mem kl hmem, hsub⟩

theorem create_feature_dict_point (T : ℚ → ℚ → ℚ × ℚ) {f : Feature}
    (h : f.geometry.isPoint = true) :
    ∃ fd, create_feature_dict T f = Except.ok fd := by
  cases hg : f.geometry with
  | point lon lat =>
    unfold create_feature_dict transform_coordinates
    rw [hg]
    exact ⟨_, rfl⟩
  | other tn =>
    rw [hg] at h
    simp [Geometry.isPoint] at h

/-- The main induction for extract_postcodes: starting from an accumulator
satisfying the partition invariant, the loop succeeds on all-point features,
preserves the invariant and the accumulated records, and files every truthy
postcode record under its postcode. -/
theorem extractLoop_spec (T : ℚ → ℚ → ℚ × ℚ) :
    ∀ (fs : List Feature) (m : List (String × List FeatureDict)),
      (∀ f ∈ fs, f.geometry.isPoint = true) →
      (m.map Prod.fst).Nodup →
      (∀ pr ∈ m, pr.1 ≠ "" ∧
        ∀ r ∈ pr.2, r.lookup "codigo_postal" = some (PyVal.vstr pr.1)) →
      ∃ parts, extractLoop T fs m = Except.ok parts ∧
        (parts.map Prod.fst).Nodup ∧
        (∀ pr ∈ parts, pr.1 ≠ "" ∧
          ∀ r ∈ pr.2, r.lookup "codigo_postal" = some (PyVal.vstr pr.1)) ∧
        (∀ pc0 recs0, (pc0, recs0) ∈ m →
          ∃ recs2, (pc0, recs2) ∈ parts ∧ ∀ r ∈ recs0, r ∈ recs2) ∧
        (∀ f ∈ fs, ∀ fd, create_feature_dict T f = Except.ok fd →
          ∀ pc, fd.lookup "codigo_postal" = some (PyVal.vstr pc) → pc ≠ "" →
            ∃ recs, (pc, recs) ∈ parts ∧ fd ∈ recs) := by
  intro fs
  induction fs with
  | nil =>
    intro m _ hnd hrec
    refine ⟨m, rfl, hnd, hrec, ?_, ?_⟩
    · intro pc0 recs0 h
      exact ⟨recs0, h, fun r hr => hr⟩
    · intro f hf
      simp at hf
  | cons f fs ih =>
    intro m hpt hnd hrec
    obtain ⟨fdv, hfdv⟩ := create_feature_dict_point T (hpt f (List.mem_cons_self f fs))
    have hptfs : ∀ g ∈ fs, g.geometry.isPoint = true :=
      fun g hg => hpt g (List.mem_cons_of_mem f hg)
    cases hlk : fdv.lookup "codigo_postal" with
    | none =>
      have hstep : extractLoop T (f :: fs) m = extractLoop T fs m := by
        conv_lhs => rw [extractLoop]
        simp only [hfdv, hlk]
      obtain ⟨parts, hloop, hnd2, hrec2, hpers, hfile⟩ := ih m hptfs hnd hrec
      refine ⟨parts, hstep ▸ hloop, hnd2, hrec2, hpers, ?_⟩
      intro g hg fd hfd pc hpcl hpcne
      rcases List.mem_cons.1 hg with hgf | hgfs
      · subst hgf
        rw [hfdv] at hfd
        injection hfd with he
        subst he
        rw [hlk] at hpcl
        cases hpcl
      · exact hfile g hgfs fd hfd pc hpcl hpcne
    | some v =>
      cases v with
      | vnone =>
        have hstep : extractLoop T (f :: fs) m = extractLoop T fs m := by
          conv_lhs => rw [extractLoop]
          simp only [hfdv, hlk]
        obtain ⟨parts, hloop, hnd2, hrec2, hpers, hfile⟩ := ih m hptfs hnd hrec
        refine ⟨parts, hstep ▸ hloop, hnd2, hrec2, hpers, ?_⟩
        intro g hg fd hfd pc hpcl hpcne
        rcases List.mem_cons.1 hg with hgf | hgfs
        · subst hgf
          rw [hfdv] at hfd
          injection hfd with he
          subst he
          rw [hlk] at hpcl
          cases hpcl
        · exact hfile g hgfs fd hfd pc hpcl hpcne
      | vnum q =>
        have hstep : extractLoop T (f :: fs) m = extractLoop T fs m := by
          conv_lhs => rw [extractLoop]
          simp only [hfdv, hlk]
        obtain ⟨parts, hloop, hnd2, hrec2, hpers, hfile⟩ := ih m hptfs hnd hrec
        refine ⟨parts, hstep ▸ hloop, hnd2, hrec2, hpers, ?_⟩
        intro g hg fd hfd pc hpcl hpcne
        rcases List.mem_cons.1 hg with hgf | hgfs
        · subst hgf
          rw [hfdv] at hfd
          injection hfd with he
          subst he
          rw [hlk] at hpcl
          cases hpcl
        · exact hfile g hgfs fd hfd pc hpcl hpcne
      | vstr pc =>
        by_cases hemp : pc = ""
        · have hstep : extractLoop T (f :: fs) m = extractLoop T fs m := by
            conv_lhs => rw [extractLoop]
            simp only [hfdv, hlk]
            simp [hemp]
          obtain ⟨parts, hloop, hnd2, hrec2, hpers, hfile⟩ := ih m hptfs hnd hrec
          refine ⟨parts, hstep ▸ hloop, hnd2, hrec2, hpers, ?_⟩
          intro g hg fd hfd pc2 hpcl hpcne
          rcases List.mem_cons.1 hg with hgf | hgfs
          · subst hgf
            rw [hfdv] at hfd
            injection hfd with he
            subst he
            rw [hlk] at hpcl
            injection hpcl with he2
            injection he2 with he3
            exact absurd (he3 ▸ hemp) hpcne
          · exact hfile g hgfs fd hfd pc2 hpcl hpcne
        · have hstep : extractLoop T (f :: fs) m =
              extractLoop T fs (appendPart m pc fdv) := by
            conv_lhs => rw [extractLoop]
            simp only [hfdv, hlk]
            simp [hemp]
          obtain ⟨parts, hloop, hnd2, hrec2, hpers, hfile⟩ :=
            ih (appendPart m pc fdv) hptfs (appendPart_keys_nodup hnd)
              (appendPart_records hrec hlk hemp)
          refine ⟨parts, hstep ▸ hloop, hnd2, hrec2, ?_, ?_⟩
          · intro pc0 recs0 h0
            obtain ⟨recs1, hmem1, hsub1⟩ := appendPart_persist pc fdv h0
            obtain ⟨recs2, hmem2, hsub2⟩ := hpers pc0 recs1 hmem1
            exact ⟨recs2, hmem2, fun r hr => hsub2 r (hsub1 r hr)⟩
          · intro g hg fd hfd pc2 hpcl hpcne
            rcases List.mem_cons.1 hg with hgf | hgfs
            · subst hgf
              rw [hfdv] at hfd
              injection hfd with he
              subst he
              rw [hlk] at hpcl
              injection hpcl with he2
              injection he2 with he3
              subst he3
              obtain ⟨recs1, hmem1, hfdm1⟩ :=
                appendPart_mem_self m pc fdv
              obtain ⟨recs2, hmem2, hsub2⟩ := hpers pc recs1 hmem1
              exact ⟨recs2, hmem2, hsub2 fdv hfdm1⟩
            · exact hfile g hgfs fd hfd pc2 hpcl hpcne

/-! Lemmas bridging list filters over index ranges with Finset filters, and
the index-bijection transport used for the permutation claim. -/

theorem length_filter_range (N : ℕ) (p : ℕ → Bool) :
    ((List.range N).filter p).length =
      ((Finset.range N).filter (fun i => p i = true)).card := by
  induction N with
  | zero => rfl
  | succ k ih =>
    rw [List.range_succ, List.filter_append, List.length_append, Finset.range_succ,
      Finset.filter_insert]
    cases hp : p k
    · rw [if_neg (by simp [hp])]
      simp [hp, ih]
    · rw [if_pos (by simp [hp])]
      have hk : k ∉ (Finset.range k).filter (fun i => p i = true) := by simp
      rw [Finset.card_insert_of_not_mem hk]
      simp [hp, ih]

theorem sum_filter_range (N : ℕ) (p : ℕ → Bool) (f : ℕ → ℚ) :
    ((((List.range N).filter p).map f).sum) =
      ∑ i ∈ (Finset.range N).filter (fun i => p i = true), f i := by
  induction N with
  | zero => rfl
  | succ k ih =>
    rw [List.range_succ, List.filter_append, List.map_append, List.sum_append,
      Finset.range_succ, Finset.filter_insert]
    cases hp : p k
    · rw [if_neg (by simp [hp])]
      simp [hp, ih]
    · rw [if_pos (by simp [hp])]
      have hk : k ∉ (Finset.range k).filter (fun i => p i = true) := by simp
      rw [Finset.sum_insert hk]
      have h1 : (([k].filter p).map f).sum = f k := by simp [hp]
      rw [h1, ih]
      exact add_comm _ _

theorem countLabel_reindex {lab1 lab2 : List ℤ} {N : ℕ} {σ σi : ℕ → ℕ} {ρ : ℤ → ℤ}
    (hl1 : lab1.length = N) (hl2 : lab2.length = N)
    (hσ : ∀ i, i < N → σ i < N) (hσi : ∀ i, i < N → σi i < N)
    (hinv : ∀ i, i < N → σi (σ i) = i) (hinv2 : ∀ i, i < N → σ (σi i) = i)
    (hρinj : Function.Injective ρ)
    (hlab : ∀ i, i < N → labGet lab2 i = ρ (labGet lab1 (σ i)))
    (l : ℤ) :
    countLabel lab2 (ρ l) = countLabel lab1 l := by
  unfold countLabel memberIdxs
  rw [hl1, hl2, length_filter_range, length_filter_range]
  refine Finset.card_nbij' σ σi ?_ ?_ ?_ ?_
  · intro a ha
    rw [Finset.mem_filter, Finset.mem_range] at ha ⊢
    obtain ⟨haN, hpa⟩ := ha
    refine ⟨hσ a haN, ?_⟩
    have h1 : labGet lab2 a = ρ l := by simpa using hpa
    rw [hlab a haN] at h1
    have h2 : labGet lab1 (σ a) = l := hρinj h1
    simp [h2]
  · intro a ha
    rw [Finset.mem_filter, Finset.mem_range] at ha ⊢
    obtain ⟨haN, hpa⟩ := ha
    refine ⟨hσi a haN, ?_⟩
    have h1 : labGet lab1 a = l := by simpa using hpa
    have h2 : labGet lab2 (σi a) = ρ (labGet lab1 (σ (σi a))) := hlab _ (hσi a haN)
    rw [hinv2 a haN, h1] at h2
    simp [h2]
  · intro a ha
    rw [Finset.mem_filter, Finset.mem_range] at ha
    exact hinv a ha.1
  · intro a ha
    rw [Finset.mem_filter, Finset.mem_range] at ha
    exact hinv2 a ha.1

theorem memberSum_reindex {lab1 lab2 : List ℤ} {N : ℕ} {σ σi : ℕ → ℕ} {ρ : ℤ → ℤ}
    (hl1 : lab1.length = N) (hl2 : lab2.length = N)
    (hσ : ∀ i, i < N → σ i < N) (hσi : ∀ i, i < N → σi i < N)
    (hinv : ∀ i, i < N → σi (σ i) = i) (hinv2 : ∀ i, i < N → σ (σi i) = i)
    (hρinj : Function.Injective ρ)
    (hlab : ∀ i, i < N → labGet lab2 i = ρ (labGet lab1 (σ i)))
    (f1 f2 : ℕ → ℚ) (hf : ∀ i, i < N → f2 i = f1 (σ i)) (l : ℤ) :
    ((memberIdxs lab2 (ρ l)).map f2).sum = ((memberIdxs lab1 l).map f1).sum := by
  unfold memberIdxs
  rw [hl1, hl2, sum_filter_range, sum_filter_range]
  refine Finset.sum_nbij' σ σi ?_ ?_ ?_ ?_ ?_
  · intro a ha
    rw [Finset.mem_filter, Finset.mem_range] at ha ⊢
    obtain ⟨haN, hpa⟩ := ha
    refine ⟨hσ a haN, ?_⟩
    have h1 : labGet lab2 a = ρ l := by simpa using hpa
    rw [hlab a haN] at h1
    have h2 : labGet lab1 (σ a) = l := hρinj h1
    simp [h2]
  · intro a ha
    rw [Finset.mem_filter, Finset.mem_range] at ha ⊢
    obtain ⟨haN, hpa⟩ := ha
    refine ⟨hσi a haN, ?_⟩
    have h1 : labGet lab1 a = l := by simpa using hpa
    have h2 : labGet lab2 (σi a) = ρ (labGet lab1 (σ (σi a))) := hlab _ (hσi a haN)
    rw [hinv2 a haN, h1] at h2
    simp [h2]
  · intro a ha
    rw [Finset.mem_filter, Finset.mem_range] at ha
    exact hinv a ha.1
  · intro a ha
    rw [Finset.mem_filter, Finset.mem_range] at ha
    exact hinv2 a ha.1
  · intro a ha
    rw [Finset.mem_filter, Finset.mem_range] at ha
    exact hf a ha.1

theorem centroidOf_reindex {pts1 pts2 : List Pt} {lab1 lab2 : List ℤ} {N : ℕ}
    {σ σi : ℕ → ℕ} {ρ : ℤ → ℤ}
    (hl1 : lab1.length = N) (hl2 : lab2.length = N)
    (hσ : ∀ i, i < N → σ i < N) (hσi : ∀ i, i < N → σi i < N)
    (hinv : ∀ i, i < N → σi (σ i) = i) (hinv2 : ∀ i, i < N → σ (σi i) = i)
    (hρinj : Function.Injective ρ)
    (hlab : ∀ i, i < N → labGet lab2 i = ρ (labGet lab1 (σ i)))
    (hpts : ∀ i, i < N → ptGet pts2 i = ptGet pts1 (σ i)) (l : ℤ) :
    centroidOf pts2 lab2 (ρ l) = centroidOf pts1 lab1 l := by
  have hcnt := countLabel_reindex hl1 hl2 hσ hσi hinv hinv2 hρinj hlab l
  have hlen : (memberIdxs lab2 (ρ l)).length = (memberIdxs lab1 l).length := hcnt
  have hs1 := memberSum_reindex hl1 hl2 hσ hσi hinv hinv2 hρinj hlab
    (fun i => (ptGet pts1 i).1) (fun i => (ptGet pts2 i).1)
    (fun i hi => by show (ptGet pts2 i).1 = (ptGet pts1 (σ i)).1; rw [hpts i hi]) l
  have hs2 := memberSum_reindex hl1 hl2 hσ hσi hinv hinv2 hρinj hlab
    (fun i => (ptGet pts1 i).2) (fun i => (ptGet pts2 i).2)
    (fun i hi => by show (ptGet pts2 i).2 = (ptGet pts1 (σ i)).2; rw [hpts i hi]) l
  unfold centroidOf
  rw [hs1, hs2, hlen]

/-- With a strictly unique maximal candidate, that candidate is the winner. -/
theorem centroidFrom_unique_max {rows : List RawRow} {pts : List Pt} {pc town : String}
    {lstar : ℤ} (hls : lstar ∈ dbscanLabels pts) (hlsn : lstar ≠ -1)
    (hstrict : ∀ l ∈ dbscanLabels pts, l ≠ -1 → l ≠ lstar →
      countLabel (dbscanLabels pts) l < countLabel (dbscanLabels pts) lstar) :
    centroidFrom rows pts pc town = candResult rows pts (dbscanLabels pts) lstar := by
  obtain ⟨lw, hlw, hlwn, heq, hmax⟩ :=
    @centroidFrom_cluster rows pts pc town lstar hls hlsn
  by_cases h : lw = lstar
  · rw [heq, h]
  · exfalso
    have h1 := hstrict lw hlw hlwn h
    have h2 := hmax lstar hls hlsn
    omega

/-- C7 (amended): the claim of unconditional permutation invariance fails
(see the counterexample: two tied clusters swap winners under reversal).
Invariance does hold whenever (1) the clustering of the permuted file is a
relabeling of the original clustering along the permutation, (2) the maximal
member count is attained by exactly one candidate cluster, and (3) the row
nearest the winning centroid is strictly unique; then both runs return the
same result record. -/
theorem C7_amended {path : String} {r0 : RawRow} {rest : List RawRow} {pc town : String}
    {r0b : RawRow} {restb : List RawRow} {pcb townb : String}
    {pts1 pts2 : List Pt} {σ σi : ℕ → ℕ} {ρ : ℤ → ℤ} {lstar : ℤ}
    (hpath : strEndsWith path ".csv" = true)
    (hpc : r0.lookup "codigo_postal" = some pc)
    (htown : r0.lookup "poblacion" = some town)
    (hbc1 : buildCoords (r0 :: rest) = some pts1)
    (hpc2 : r0b.lookup "codigo_postal" = some pcb)
    (htown2 : r0b.lookup "poblacion" = some townb)
    (hbc2 : buildCoords (r0b :: restb) = some pts2)
    (hlen2 : (r0b :: restb).length = (r0 :: rest).length)
    (hσ : ∀ i, i < (r0 :: rest).length → σ i < (r0 :: rest).length)
    (hσi : ∀ i, i < (r0 :: rest).length → σi i < (r0 :: rest).length)
    (hinv : ∀ i, i < (r0 :: rest).length → σi (σ i) = i)
    (hinv2 : ∀ i, i < (r0 :: rest).length → σ (σi i) = i)
    (hrows : ∀ i, i < (r0 :: rest).length →
      rowGet (r0b :: restb) i = rowGet (r0 :: rest) (σ i))
    (hρinj : Function.Injective ρ) (hρn : ρ (-1) = -1)
    (hlab : ∀ i, i < (r0 :: rest).length →
      labGet (dbscanLabels pts2) i = ρ (labGet (dbscanLabels pts1) (σ i)))
    (hls : lstar ∈ dbscanLabels pts1) (hlsn : lstar ≠ -1)
    (hstrict : ∀ l ∈ dbscanLabels pts1, l ≠ -1 → l ≠ lstar →
      countLabel (dbscanLabels pts1) l < countLabel (dbscanLabels pts1) lstar)
    (hargm : ∀ j, j < (r0 :: rest).length →
      j ≠ argminIdx (pts1.map fun p =>
        sqdist p (centroidOf pts1 (dbscanLabels pts1) lstar)) →
      (pts1.map fun p => sqdist p (centroidOf pts1 (dbscanLabels pts1) lstar)).getD
        (argminIdx (pts1.map fun p =>
          sqdist p (centroidOf pts1 (dbscanLabels pts1) lstar))) 0 <
      (pts1.map fun p =>
        sqdist p (centroidOf pts1 (dbscanLabels pts1) lstar)).getD j 0) :
    ∃ res, compute_centroid path (r0 :: rest) = Except.ok (some res) ∧
      compute_centroid path (r0b :: restb) = Except.ok (some res) := by
  have hN1 : pts1.length = (r0 :: rest).length := buildCoords_length hbc1
  have hN2 : pts2.length = (r0 :: rest).length := by
    rw [buildCoords_length hbc2, hlen2]
  have hL1 : (dbscanLabels pts1).length = (r0 :: rest).length := by
    rw [dbscanLabels_length, hN1]
  have hL2 : (dbscanLabels pts2).length = (r0 :: rest).length := by
    rw [dbscanLabels_length, hN2]
  have hNpos : 0 < (r0 :: rest).length := by simp
  have hpts : ∀ i, i < (r0 :: rest).length → ptGet pts2 i = ptGet pts1 (σ i) := by
    intro i hi
    have h2 := buildCoords_getD hbc2 i (by omega)
    have h1 := buildCoords_getD hbc1 (σ i) (hσ i hi)
    rw [hrows i hi, h1] at h2
    exact (Option.some.inj h2).symm
  -- the winner on the original file
  have hwin1 : centroidFrom (r0 :: rest) pts1 pc town =
      candResult (r0 :: rest) pts1 (dbscanLabels pts1) lstar :=
    centroidFrom_unique_max hls hlsn hstrict
  -- the relabeled winner on the permuted file
  have hlsmem2 : ρ lstar ∈ dbscanLabels pts2 := by
    obtain ⟨j, hj, hje⟩ := mem_iff_labGet.1 hls
    have hjN : j < (r0 :: rest).length := by omega
    have h := hlab (σi j) (hσi j hjN)
    rw [hinv2 j hjN, hje] at h
    refine mem_iff_labGet.2 ⟨σi j, ?_, h⟩
    rw [hL2]
    exact hσi j hjN
  have hlsn2 : ρ lstar ≠ -1 := by
    intro h
    exact hlsn (hρinj (h.trans hρn.symm))
  have hstrict2 : ∀ l2 ∈ dbscanLabels pts2, l2 ≠ -1 → l2 ≠ ρ lstar →
      countLabel (dbscanLabels pts2) l2 < countLabel (dbscanLabels pts2) (ρ lstar) := by
    intro l2 hl2 hl2n hl2ne
    obtain ⟨i, hi, hie⟩ := mem_iff_labGet.1 hl2
    have hiN : i < (r0 :: rest).length := by omega
    have hform : l2 = ρ (labGet (dbscanLabels pts1) (σ i)) := by
      rw [← hlab i hiN, hie]
    have hlmem : labGet (dbscanLabels pts1) (σ i) ∈ dbscanLabels pts1 := by
      refine labGet_mem ?_
      rw [hL1]
      exact hσ i hiN
    have hlne : labGet (dbscanLabels pts1) (σ i) ≠ -1 := by
      intro h
      rw [h, hρn] at hform
      exact hl2n hform
    have hlnes : labGet (dbscanLabels pts1) (σ i) ≠ lstar := by
      intro h
      rw [h] at hform
      exact hl2ne hform
    rw [hform,
      countLabel_reindex hL1 hL2 hσ hσi hinv hinv2 hρinj hlab,
      countLabel_reindex hL1 hL2 hσ hσi hinv hinv2 hρinj hlab]
    exact hstrict _ hlmem hlne hlnes
  have hwin2 : centroidFrom (r0b :: restb) pts2 pcb townb =
      candResult (r0b :: restb) pts2 (dbscanLabels pts2) (ρ lstar) :=
    centroidFrom_unique_max hlsmem2 hlsn2 hstrict2
  -- the two candResults agree
  have hcent : centroidOf pts2 (dbscanLabels pts2) (ρ lstar) =
      centroidOf pts1 (dbscanLabels pts1) lstar :=
    centroidOf_reindex hL1 hL2 hσ hσi hinv hinv2 hρinj hlab hpts lstar
  have hcnt : countLabel (dbscanLabels pts2) (ρ lstar) =
      countLabel (dbscanLabels pts1) lstar :=
    countLabel_reindex hL1 hL2 hσ hσi hinv hinv2 hρinj hlab lstar
  -- distances and argmin
  have hds1len : (pts1.map fun p =>
      sqdist p (centroidOf pts1 (dbscanLabels pts1) lstar)).length =
      (r0 :: rest).length := by
    rw [List.length_map, hN1]
  have hds2len : (pts2.map fun p =>
      sqdist p (centroidOf pts1 (dbscanLabels pts1) lstar)).length =
      (r0 :: rest).length := by
    rw [List.length_map, hN2]
  have hds1ne : (pts1.map fun p =>
      sqdist p (centroidOf pts1 (dbscanLabels pts1) lstar)) ≠ [] := by
    intro h
    rw [h] at hds1len
    simp at hds1len
  have hds2ne : (pts2.map fun p =>
      sqdist p (centroidOf pts1 (dbscanLabels pts1) lstar)) ≠ [] := by
    intro h
    rw [h] at hds2len
    simp at hds2len
  have hdsget : ∀ i, i < (r0 :: rest).length →
      (pts2.map fun p => sqdist p (centroidOf pts1 (dbscanLabels pts1) lstar)).getD i 0 =
      (pts1.map fun p =>
        sqdist p (centroidOf pts1 (dbscanLabels pts1) lstar)).getD (σ i) 0 := by
    intro i hi
    rw [ptGet_map_getD (by omega), ptGet_map_getD (by rw [hN1]; exact hσ i hi), hpts i hi]
  have hk1 : argminIdx (pts1.map fun p =>
      sqdist p (centroidOf pts1 (dbscanLabels pts1) lstar)) < (r0 :: rest).length := by
    have := argminIdx_lt_length _ hds1ne
    omega
  have hk2N : argminIdx (pts2.map fun p =>
      sqdist p (centroidOf pts1 (dbscanLabels pts1) lstar)) < (r0 :: rest).length := by
    have := argminIdx_lt_length _ hds2ne
    omega
  have hargeq : argminIdx (pts2.map fun p =>
      sqdist p (centroidOf pts1 (dbscanLabels pts1) lstar)) =
      σi (argminIdx (pts1.map fun p =>
        sqdist p (centroidOf pts1 (dbscanLabels pts1) lstar))) := by
    by_contra hne
    have hmin2le : (pts2.map fun p =>
        sqdist p (centroidOf pts1 (dbscanLabels pts1) lstar)).getD
          (argminIdx (pts2.map fun p =>
            sqdist p (centroidOf pts1 (dbscanLabels pts1) lstar))) 0 ≤
        (pts1.map fun p => sqdist p (centroidOf pts1 (dbscanLabels pts1) lstar)).getD
          (argminIdx (pts1.map fun p =>
            sqdist p (centroidOf pts1 (dbscanLabels pts1) lstar))) 0 := by
      have h1 : (pts2.map fun p =>
          sqdist p (centroidOf pts1 (dbscanLabels pts1) lstar)).getD
            (σi (argminIdx (pts1.map fun p =>
              sqdist p (centroidOf pts1 (dbscanLabels pts1) lstar)))) 0 =
          (pts1.map fun p => sqdist p (centroidOf pts1 (dbscanLabels pts1) lstar)).getD
            (argminIdx (pts1.map fun p =>
              sqdist p (centroidOf pts1 (dbscanLabels pts1) lstar))) 0 := by
        rw [hdsget _ (hσi _ hk1), hinv2 _ hk1]
      rw [← h1, getD_argminIdx _ hds2ne]
      refine listMin_le _ _ ?_
      rw [hds2len]
      exact hσi _ hk1
    have hσk2ne : σ (argminIdx (pts2.map fun p =>
        sqdist p (centroidOf pts1 (dbscanLabels pts1) lstar))) ≠
        argminIdx (pts1.map fun p =>
          sqdist p (centroidOf pts1 (dbscanLabels pts1) lstar)) := by
      intro h
      apply hne
      rw [← h, hinv _ hk2N]
    have hgt := hargm _ (hσ _ hk2N) hσk2ne
    rw [← hdsget _ hk2N] at hgt
    exact absurd (lt_of_le_of_lt hmin2le hgt) (lt_irrefl _)
  have hcand : candResult (r0b :: restb) pts2 (dbscanLabels pts2) (ρ lstar) =
      candResult (r0 :: rest) pts1 (dbscanLabels pts1) lstar := by
    simp only [candResult, CentroidResult.mk.injEq]
    refine ⟨?_, ?_, ?_⟩
    · rw [hcnt, hlen2]
    · exact hcnt
    · rw [hcent, hargeq, hrows _ (hσi _ hk1), hinv2 _ hk1]
  refine ⟨candResult (r0 :: rest) pts1 (dbscanLabels pts1) lstar, ?_, ?_⟩
  · rw [compute_centroid_ok hpath hpc htown hbc1, hwin1]
  · rw [compute_centroid_ok hpath hpc2 htown2 hbc2, hwin2, hcand]

/-- C7 counterexample: reversing the rows of a partition file with two
clusters tied at 20 members swaps which cluster receives label 0, and the
stable descending sort then selects the other cluster, so the representative
record changes from the row at x = 10 to the row at x = 1010: row order is
not irrelevant, contrary to the claim. -/
theorem C7_counterexample :
    rowsAB.reverse.Perm rowsAB ∧
    compute_centroid "46001.csv" rowsAB =
      Except.ok (some (CentroidResult.mk 50 20
        [("x", some "10"), ("y", some "0"),
         ("codigo_postal", some "46001"), ("poblacion", some "Valencia")])) ∧
    compute_centroid "46001.csv" rowsAB.reverse =
      Except.ok (some (CentroidResult.mk 50 20
        [("x", some "1010"), ("y", some "0"),
         ("codigo_postal", some "46001"), ("poblacion", some "Valencia")])) ∧
    (CentroidResult.mk 50 20
        [("x", some "10"), ("y", some "0"),
         ("codigo_postal", some "46001"), ("poblacion", some "Valencia")] ≠
      CentroidResult.mk 50 20
        [("x", some "1010"), ("y", some "0"),
         ("codigo_postal", some "46001"), ("poblacion", some "Valencia")]) := by
  with_unfolding_all decide

/-- Witness for C7 (amended): the single-cluster file rowsA under reversal;
the clustering of the reversed file is the identity relabeling of the
original along the reversal, the maximum is unique (one candidate), the
nearest row (x = 10) is strictly unique, and both runs return the same
record. -/
theorem C7_amended_witness :
    (∀ i, i < (mkRow "0" :: (((List.range 18).map fun i =>
        mkRow (toString (i + 1))) ++ [mkRow "28"])).length →
      labGet (dbscanLabels ptsA.reverse) i =
        id (labGet (dbscanLabels ptsA) (19 - i))) ∧
    ∃ res, compute_centroid "46001.csv" rowsA = Except.ok (some res) ∧
      compute_centroid "46001.csv" rowsA.reverse = Except.ok (some res) :=
  ⟨by with_unfolding_all decide,
   by
    have h := @C7_amended "46001.csv" (mkRow "0")
      (((List.range 18).map fun i => mkRow (toString (i + 1))) ++ [mkRow "28"])
      "46001" "Valencia"
      (mkRow "28") ((List.range 19).map fun i => mkRow (toString (18 - i)))
      "46001" "Valencia"
      ptsA ptsA.reverse
      (fun i => 19 - i) (fun i => 19 - i) id 0
      (by with_unfolding_all decide) (by with_unfolding_all decide)
      (by with_unfolding_all decide) (by with_unfolding_all decide)
      (by with_unfolding_all decide) (by with_unfolding_all decide)
      (by with_unfolding_all decide) (by with_unfolding_all decide)
      (by with_unfolding_all decide) (by with_unfolding_all decide)
      (by with_unfolding_all decide) (by with_unfolding_all decide)
      (by with_unfolding_all decide)
      (fun a b hab => hab) rfl
      (by with_unfolding_all decide)
      (by with_unfolding_all decide) (by with_unfolding_all decide)
      (by with_unfolding_all decide) (by with_unfolding_all decide)
    have hrows1 : (mkRow "0" :: (((List.range 18).map fun i =>
        mkRow (toString (i + 1))) ++ [mkRow "28"])) = rowsA := by
      with_unfolding_all decide
    have hrows2 : (mkRow "28" :: ((List.range 19).map fun i =>
        mkRow (toString (18 - i)))) = rowsA.reverse := by
      with_unfolding_all decide
    rw [hrows1, hrows2] at h
    exact h⟩

/-- C6: for every dataset of point features, the partitioner groups each
record under exactly the file named after its truthy codigo_postal: the file
names are distinct, every record in the file named pc ++ ".csv" carries
codigo_postal pc (a non-empty string), every feature whose dictionary has a
truthy codigo_postal is filed under it, and features lacking a truthy
codigo_postal appear in no partition file. -/
theorem C6_partition_invariant (T : ℚ → ℚ → ℚ × ℚ) (features : List Feature)
    (hpt : ∀ f ∈ features, f.geometry.isPoint = true) :
    ∃ parts, extract_postcodes T features = Except.ok parts ∧
      (parts.map Prod.fst).Nodup ∧
      (∀ pr ∈ partitionFiles parts, ∃ pc, pr.1 = pc ++ ".csv" ∧ pc ≠ "" ∧
        ∀ r ∈ pr.2, r.lookup "codigo_postal" = some (PyVal.vstr pc)) ∧
      (∀ f ∈ features, ∀ fd, create_feature_dict T f = Except.ok fd →
        ∀ pc, fd.lookup "codigo_postal" = some (PyVal.vstr pc) → pc ≠ "" →
          ∃ recs, (pc ++ ".csv", recs) ∈ partitionFiles parts ∧ fd ∈ recs) ∧
      (∀ f ∈ features, ∀ fd, create_feature_dict T f = Except.ok fd →
        (fd.lookup "codigo_postal" = some PyVal.vnone ∨
          fd.lookup "codigo_postal" = some (PyVal.vstr "")) →
        ∀ pr ∈ partitionFiles parts, fd ∉ pr.2) := by
  obtain ⟨parts, hloop, hnd, hrec, _, hfile⟩ :=
    extractLoop_spec T features [] hpt (by simp) (by simp)
  refine ⟨parts, hloop, hnd, ?_, ?_, ?_⟩
  · intro pr hpr
    obtain ⟨pr0, hpr0, hpr0e⟩ := List.mem_map.1 hpr
    refine ⟨pr0.1, by rw [← hpr0e], (hrec pr0 hpr0).1, ?_⟩
    intro r hr
    have : r ∈ pr0.2 := by rw [← hpr0e] at hr; exact hr
    exact (hrec pr0 hpr0).2 r this
  · intro f hf fd hfd pc hpcl hpcne
    obtain ⟨recs, hmem, hfdm⟩ := hfile f hf fd hfd pc hpcl hpcne
    refine ⟨recs, ?_, hfdm⟩
    exact List.mem_map.2 ⟨(pc, recs), hmem, rfl⟩
  · intro f hf fd hfd hbad pr hpr hfdm
    obtain ⟨pr0, hpr0, hpr0e⟩ := List.mem_map.1 hpr
    have hfdm0 : fd ∈ pr0.2 := by rw [← hpr0e] at hfdm; exact hfdm
    have h1 := (hrec pr0 hpr0).2 fd hfdm0
    have h2 := (hrec pr0 hpr0).1
    rcases hbad with hb | hb
    · rw [hb] at h1
      injection h1 with he
      cases he
    · rw [hb] at h1
      injection h1 with he
      injection he with he2
      exact h2 he2.symm

/-- Witness for C6: three point features — one with postcode "46001", one
with a missing postcode, one with an empty-string postcode; only the first
is filed, under "46001.csv". -/
theorem C6_partition_invariant_witness :
    (∀ f ∈ [Feature.mk (Geometry.point 0 0)
        [("codigo_postal", some "46001"), ("poblacion", some "Valencia")],
      Feature.mk (Geometry.point 1 1) [("poblacion", some "Xativa")],
      Feature.mk (Geometry.point 2 2)
        [("codigo_postal", some ""), ("poblacion", some "Denia")]],
      f.geometry.isPoint = true) ∧
    ∃ parts, extract_postcodes (fun a b => (a, b))
        [Feature.mk (Geometry.point 0 0)
          [("codigo_postal", some "46001"), ("poblacion", some "Valencia")],
         Feature.mk (Geometry.point 1 1) [("poblacion", some "Xativa")],
         Feature.mk (Geometry.point 2 2)
          [("codigo_postal", some ""), ("poblacion", some "Denia")]] =
        Except.ok parts ∧
      (parts.map Prod.fst).Nodup ∧
      (∀ pr ∈ partitionFiles parts, ∃ pc, pr.1 = pc ++ ".csv" ∧ pc ≠ "" ∧
        ∀ r ∈ pr.2, r.lookup "codigo_postal" = some (PyVal.vstr pc)) ∧
      (∀ f ∈ [Feature.mk (Geometry.point 0 0)
          [("codigo_postal", some "46001"), ("poblacion", some "Valencia")],
        Feature.mk (Geometry.point 1 1) [("poblacion", some "Xativa")],
        Feature.mk (Geometry.point 2 2)
          [("codigo_postal", some ""), ("poblacion", some "Denia")]],
        ∀ fd, create_feature_dict (fun a b => (a, b)) f = Except.ok fd →
        ∀ pc, fd.lookup "codigo_postal" = some (PyVal.vstr pc) → pc ≠ "" →
          ∃ recs, (pc ++ ".csv", recs) ∈ partitionFiles parts ∧ fd ∈ recs) ∧
      (∀ f ∈ [Feature.mk (Geometry.point 0 0)
          [("codigo_postal", some "46001"), ("poblacion", some "Valencia")],
        Feature.mk (Geometry.point 1 1) [("poblacion", some "Xativa")],
        Feature.mk (Geometry.point 2 2)
          [("codigo_postal", some ""), ("poblacion", some "Denia")]],
        ∀ fd, create_feature_dict (fun a b => (a, b)) f = Except.ok fd →
        (fd.lookup "codigo_postal" = some PyVal.vnone ∨
          fd.lookup "codigo_postal" = some (PyVal.vstr "")) →
        ∀ pr ∈ partitionFiles parts, fd ∉ pr.2) :=
  ⟨by decide,
   C6_partition_invariant (fun a b => (a, b))
     [Feature.mk (Geometry.point 0 0)
        [("codigo_postal", some "46001"), ("poblacion", some "Valencia")],
      Feature.mk (Geometry.point 1 1) [("poblacion", some "Xativa")],
      Feature.mk (Geometry.point 2 2)
        [("codigo_postal", some ""), ("poblacion", some "Denia")]]
     (by decide)⟩

end DCAC
